import Mathlib

/-!
Shallow embedding of the nonogram line inference engine
(src/nonogram/inference.cc) and verification of its specification.

The C++ engine is a class `CInferenceEngine` with fields
`m_vecConst` (block lengths), `m_vecCells` (tri-state cells),
`m_vecChanged` (per-cell change flags) and `m_bSelfChanged`
(aggregate change flag).  `Infer` enumerates all valid block
placements, intersects their materialized lines in an accumulator,
and commits every non-unknown accumulator cell back into the line,
throwing (modelled as status `-1`) on a contradictory commit.
-/

inductive TriState where
  | ts_dontknow
  | ts_true
  | ts_false
deriving DecidableEq, Repr

open TriState

/-- The engine's state: constraint, cells and the change flags
(the fields of the C++ class `CInferenceEngine`). -/
structure CInferenceEngine where
  m_vecConst : List Nat
  m_vecCells : List TriState
  m_vecChanged : List Bool
  m_bSelfChanged : Bool
deriving DecidableEq, Repr

/-- `CInferenceEngine::Assign`: commit `newVal` to `cell`.  Returns the new
cell value together with the "did it change" flag, or an error when the
cell already holds the other concrete value (the C++ `throw -1`). -/
def Assign (cell newVal : TriState) : Except Unit (TriState × Bool) :=
  if cell ≠ newVal then
    if cell ≠ ts_dontknow then Except.error ()
    else Except.ok (newVal, true)
  else Except.ok (cell, false)

/-- A successful `Assign`'s effect on the engine state: when the cell
changed (`ch = true`) the cell is updated and the change flags are set,
exactly as the mutating branch of the C++ `Assign` does. -/
def writeCell (eng : CInferenceEngine) (i : Nat) (v : TriState) (ch : Bool) :
    CInferenceEngine :=
  if ch then
    { eng with
      m_vecCells := eng.m_vecCells.set i v
      m_vecChanged := eng.m_vecChanged.set i true
      m_bSelfChanged := true }
  else eng

/-- The scratch line `tmp` built at the start of `Accumulate`: everything
`ts_false`, then every cell of every block overwritten with `ts_true`. -/
def materializeTmp (eng : CInferenceEngine) (pos : List Nat) : List TriState :=
  let count := eng.m_vecConst.length
  let len := eng.m_vecCells.length
  (List.range count).foldl
    (fun tmp i =>
      (List.range (eng.m_vecConst.getD i 0)).foldl
        (fun tmp j => tmp.set (pos.getD i 0 + j) ts_true) tmp)
    (List.replicate len ts_false)

/-- `CInferenceEngine::Accumulate`: fold one placement into the running
accumulator.  First placement: accumulator becomes the materialized line;
later placements: cells that disagree fall back to `ts_dontknow`.
Always clears `bFirst`. -/
def Accumulate (eng : CInferenceEngine) (pos : List Nat)
    (accumulator : List TriState) (bFirst : Bool) : List TriState × Bool :=
  let len := eng.m_vecCells.length
  let tmp := materializeTmp eng pos
  let acc' := (List.range len).map (fun i =>
    if bFirst then tmp.getD i ts_dontknow
    else if accumulator.getD i ts_dontknow ≠ tmp.getD i ts_dontknow then ts_dontknow
    else accumulator.getD i ts_dontknow)
  (acc', false)

/-- The `bViolatesSolid` check of `Enumerate`: some cell in
`[prevSpaceStart, i)` is already known `ts_true`. -/
def bViolatesSolidAt (eng : CInferenceEngine) (prevSpaceStart i : Nat) : Bool :=
  (List.range' prevSpaceStart (i - prevSpaceStart)).any
    (fun j => eng.m_vecCells.getD j ts_dontknow == ts_true)

/-- The `bViolatesSpace` check of `Enumerate`: some cell of the block body
`[i, i + b)` is out of bounds or already known `ts_false`. -/
def bViolatesSpaceAt (eng : CInferenceEngine) (b i : Nat) : Bool :=
  (List.range' i (eng.m_vecConst.getD b 0)).any
    (fun j => decide (eng.m_vecCells.length ≤ j) ||
      (eng.m_vecCells.getD j ts_dontknow == ts_false))

/-- The tail check of `Enumerate` (last block only): some cell after the
block's end is already known `ts_true`. -/
def bViolatesTailAt (eng : CInferenceEngine) (b i : Nat) : Bool :=
  (List.range' (i + eng.m_vecConst.getD b 0)
      (eng.m_vecCells.length - (i + eng.m_vecConst.getD b 0))).any
    (fun j => eng.m_vecCells.getD j ts_dontknow == ts_true)

/-- `CInferenceEngine::Enumerate`: depth-first enumeration of all valid
placements of blocks `b..k-1`, folding each complete placement into the
accumulator.  `fuel` drives the structural recursion; the engine's calls
maintain `fuel = k - b`, so the out-of-fuel branch is never reached. -/
def Enumerate (eng : CInferenceEngine) :
    Nat → Nat → List Nat → List TriState → Bool → List TriState × Bool
  | fuel, b, pos, accumulator, bFirst =>
    if b = eng.m_vecConst.length then Accumulate eng pos accumulator bFirst
    else
      match fuel with
      | 0 => (accumulator, bFirst)
      | fuel + 1 =>
        let start := if b = 0 then 0
          else pos.getD (b-1) 0 + eng.m_vecConst.getD (b-1) 0 + 1
        let prevSpaceStart := if b = 0 then 0
          else pos.getD (b-1) 0 + eng.m_vecConst.getD (b-1) 0
        let len := eng.m_vecCells.length
        (List.range' start (len - start)).foldl
          (fun st i =>
            if bViolatesSolidAt eng prevSpaceStart i then st
            else if bViolatesSpaceAt eng b i then st
            else if (b == eng.m_vecConst.length - 1) && bViolatesTailAt eng b i then st
            else Enumerate eng fuel (b+1) (pos.set b i) st.1 st.2)
          (accumulator, bFirst)

/-- The list of placements `Enumerate` folds into the accumulator, in
DFS order: same recursion and pruning checks as `Enumerate`, emitting
the placement at the base case instead of folding it. -/
def enumPs (eng : CInferenceEngine) :
    Nat → Nat → List Nat → List (List Nat)
  | fuel, b, pos =>
    if b = eng.m_vecConst.length then [pos]
    else
      match fuel with
      | 0 => []
      | fuel + 1 =>
        let start := if b = 0 then 0
          else pos.getD (b-1) 0 + eng.m_vecConst.getD (b-1) 0 + 1
        let prevSpaceStart := if b = 0 then 0
          else pos.getD (b-1) 0 + eng.m_vecConst.getD (b-1) 0
        let len := eng.m_vecCells.length
        (List.range' start (len - start)).foldl
          (fun acc i =>
            if bViolatesSolidAt eng prevSpaceStart i then acc
            else if bViolatesSpaceAt eng b i then acc
            else if (b == eng.m_vecConst.length - 1) && bViolatesTailAt eng b i then acc
            else acc ++ enumPs eng fuel (b+1) (pos.set b i))
          []

/-- The commit loop at the end of `Infer`: for each index `i` (with
`fuel = count - i` remaining iterations), commit the accumulator's
non-unknown cells via `Assign`, stopping with status `-1` at the first
contradiction (the C++ `throw` / `catch`). -/
def commitFrom (acc : List TriState) :
    Nat → Nat → CInferenceEngine → CInferenceEngine × Int
  | 0, _, eng => (eng, 0)
  | fuel + 1, i, eng =>
    if acc.getD i ts_dontknow ≠ ts_dontknow then
      match Assign (eng.m_vecCells.getD i ts_dontknow) (acc.getD i ts_dontknow) with
      | Except.error _ => (eng, -1)
      | Except.ok (v, ch) => commitFrom acc fuel (i+1) (writeCell eng i v ch)
    else commitFrom acc fuel (i+1) eng

/-- The enumeration performed by `Infer`: `pos` zeroed, accumulator all
`ts_dontknow`, `bFirst = true`, starting at block 0 with full fuel. -/
def inferEnum (eng : CInferenceEngine) : List TriState × Bool :=
  Enumerate eng eng.m_vecConst.length 0
    (List.replicate eng.m_vecConst.length 0)
    (List.replicate eng.m_vecCells.length ts_dontknow) true

/-- `CInferenceEngine::Infer`: run the enumeration, then commit the
accumulator.  Returns the final engine state and the status (`0` for
success, `-1` for contradiction). -/
def Infer (eng : CInferenceEngine) : CInferenceEngine × Int :=
  commitFrom (inferEnum eng).1 eng.m_vecCells.length 0 eng

/-! ## Specification-level definitions

These follow the spec's words (§3 "Placement", §4.2 "materialize"):
a placement is consistent when its blocks are ordered with gaps, fit in
the line, and its materialized line agrees with every known cell. -/

/-- Cell `j` is covered by some block of placement `p`. -/
def coversP (c p : List Nat) (j : Nat) : Prop :=
  ∃ m, m < c.length ∧ p.getD m 0 ≤ j ∧ j < p.getD m 0 + c.getD m 0

instance coversP.dec (c p : List Nat) (j : Nat) : Decidable (coversP c p j) := by
  unfold coversP; infer_instance

/-- The materialized line of a placement, per the spec: every covered
cell is `ts_true`, every other cell `ts_false`. -/
def lineCell (c p : List Nat) (j : Nat) : TriState :=
  if coversP c p j then ts_true else ts_false

/-- A placement consistent with the constraint and the pre-call cells,
per the spec: right length, blocks ordered and separated by at least one
cell, each block inside the line, and the materialized line agreeing
with every already-known cell. -/
def Consistent (c : List Nat) (cells : List TriState) (p : List Nat) : Prop :=
  p.length = c.length ∧
  (∀ i, 0 < i → i < c.length →
    p.getD (i-1) 0 + c.getD (i-1) 0 + 1 ≤ p.getD i 0) ∧
  (∀ i, i < c.length → p.getD i 0 + c.getD i 0 ≤ cells.length) ∧
  (∀ j, j < cells.length → cells.getD j ts_dontknow = ts_true → coversP c p j) ∧
  (∀ j, j < cells.length → cells.getD j ts_dontknow = ts_false → ¬ coversP c p j)

/-! ## Concrete scenario engines -/

/-- Scenario 5 of the spec: `N = 10`, constraint `[2]`, cells 0,1,2
pre-set `Filled`. -/
def engC3 : CInferenceEngine :=
  ⟨[2], [ts_true, ts_true, ts_true] ++ List.replicate 7 ts_dontknow,
    List.replicate 10 false, false⟩

/-- Scenario 1 of the spec: `N = 10`, constraint `[5]`, all cells
`Unknown`. -/
def engC4 : CInferenceEngine :=
  ⟨[5], List.replicate 10 ts_dontknow, List.replicate 10 false, false⟩

/-- C3 counterexample: on scenario 5's input the engine returns success
(`0`), not the contradiction status (`-1`): every candidate start for the
block of 2 is pruned (start 0 by the tail check against the `Filled`
cell 2, all later starts by the left-gap check against cell 0), so zero
placements are found, nothing is folded, nothing is committed, and no
contradiction is ever raised. -/
theorem c3_returns_success_not_contradiction :
    (Infer engC3).2 = 0 ∧ (Infer engC3).2 ≠ -1 := by decide

/-- C3 amended: on scenario 5's input (`N = 10`, constraint `[2]`,
cells 0,1,2 `Filled`), enumeration finds zero valid placements and
`Infer` returns success (`0`) with the engine state completely
unchanged: no cell is forced and no flag is set. -/
theorem c3_amended_silent_success :
    (Infer engC3).2 = 0 ∧ (Infer engC3).1 = engC3 := by decide

/-- C4 counterexample: with constraint `[5]` over 10 `Unknown` cells,
cell 4 stays `Unknown` after `Infer` — it does not become `Filled`.
(The six valid placements start at 0..5; the placement starting at 5
covers `[5,10)` and leaves cell 4 empty, so no cell is common to all
placements and nothing is forced.) -/
theorem c4_cell4_not_forced :
    (Infer engC4).1.m_vecCells.getD 4 ts_dontknow = ts_dontknow ∧
    (Infer engC4).1.m_vecCells.getD 4 ts_dontknow ≠ ts_true := by decide

/-- C4 amended: with constraint `[5]` over 10 `Unknown` cells `Infer`
forces no cell at all: it returns success with the state unchanged
(a block of 5 in 10 cells has slack 5, so the classic overlap region
`[N - b, b) = [5, 5)` is empty). -/
theorem c4_amended_nothing_forced :
    (Infer engC4).2 = 0 ∧ (Infer engC4).1 = engC4 := by decide

/-! ## Basic lemmas about the commit loop -/

theorem getD_set_ne {α : Type} (l : List α) (i j : Nat) (v d : α)
    (h : i ≠ j) : (l.set i v).getD j d = l.getD j d := by
  simp [List.getD_eq_getElem?_getD, List.getElem?_set_ne h]

theorem getD_set_self {α : Type} (l : List α) (i : Nat) (v d : α)
    (h : i < l.length) : (l.set i v).getD i d = v := by
  simp [List.getD_eq_getElem?_getD, List.getElem?_set_self, h]

theorem getD_eq_default {α : Type} (l : List α) (i : Nat) (d : α)
    (h : l.length ≤ i) : l.getD i d = d := by
  simp [List.getD_eq_getElem?_getD, List.getElem?_eq_none h]

theorem writeCell_const (eng : CInferenceEngine) (i : Nat) (v : TriState) (ch : Bool) :
    (writeCell eng i v ch).m_vecConst = eng.m_vecConst := by
  unfold writeCell; split <;> rfl

theorem writeCell_cells_length (eng : CInferenceEngine) (i : Nat) (v : TriState) (ch : Bool) :
    (writeCell eng i v ch).m_vecCells.length = eng.m_vecCells.length := by
  unfold writeCell; split <;> simp

theorem writeCell_changed_length (eng : CInferenceEngine) (i : Nat) (v : TriState) (ch : Bool) :
    (writeCell eng i v ch).m_vecChanged.length = eng.m_vecChanged.length := by
  unfold writeCell; split <;> simp

theorem writeCell_cells_getD_ne (eng : CInferenceEngine) (i : Nat) (v : TriState) (ch : Bool)
    (j : Nat) (h : i ≠ j) :
    (writeCell eng i v ch).m_vecCells.getD j ts_dontknow =
      eng.m_vecCells.getD j ts_dontknow := by
  unfold writeCell; split
  · exact getD_set_ne _ _ _ _ _ h
  · rfl

theorem writeCell_changed_getD_ne (eng : CInferenceEngine) (i : Nat) (v : TriState) (ch : Bool)
    (j : Nat) (h : i ≠ j) :
    (writeCell eng i v ch).m_vecChanged.getD j false =
      eng.m_vecChanged.getD j false := by
  unfold writeCell; split
  · exact getD_set_ne _ _ _ _ _ h
  · rfl

/-- The commit loop returns status `0` or `-1` and nothing else. -/
theorem commitFrom_status (acc : List TriState) :
    ∀ fuel i eng, (commitFrom acc fuel i eng).2 = 0 ∨ (commitFrom acc fuel i eng).2 = -1 := by
  intro fuel
  induction fuel with
  | zero => intro i eng; left; rfl
  | succ fuel ih =>
    intro i eng
    unfold commitFrom
    split
    · rcases hA : Assign (eng.m_vecCells.getD i ts_dontknow) (acc.getD i ts_dontknow) with e | p
      · simp [hA]
      · obtain ⟨v, ch⟩ := p
        simpa [hA] using ih (i+1) (writeCell eng i v ch)
    · exact ih (i+1) eng

/-- The commit loop never changes the constraint. -/
theorem commitFrom_const (acc : List TriState) :
    ∀ fuel i eng, (commitFrom acc fuel i eng).1.m_vecConst = eng.m_vecConst := by
  intro fuel
  induction fuel with
  | zero => intro i eng; rfl
  | succ fuel ih =>
    intro i eng
    unfold commitFrom
    split
    · rcases hA : Assign (eng.m_vecCells.getD i ts_dontknow) (acc.getD i ts_dontknow) with e | p
      · simp [hA]
      · obtain ⟨v, ch⟩ := p
        simp only [hA]
        rw [ih (i+1) (writeCell eng i v ch), writeCell_const]
    · exact ih (i+1) eng

/-- The commit loop preserves the lengths of the cell and flag lists. -/
theorem commitFrom_lengths (acc : List TriState) :
    ∀ fuel i eng,
      (commitFrom acc fuel i eng).1.m_vecCells.length = eng.m_vecCells.length ∧
      (commitFrom acc fuel i eng).1.m_vecChanged.length = eng.m_vecChanged.length := by
  intro fuel
  induction fuel with
  | zero => intro i eng; exact ⟨rfl, rfl⟩
  | succ fuel ih =>
    intro i eng
    unfold commitFrom
    split
    · rcases hA : Assign (eng.m_vecCells.getD i ts_dontknow) (acc.getD i ts_dontknow) with e | p
      · simp [hA]
      · obtain ⟨v, ch⟩ := p
        simp only [hA]
        obtain ⟨h1, h2⟩ := ih (i+1) (writeCell eng i v ch)
        rw [h1, h2, writeCell_cells_length, writeCell_changed_length]
        exact ⟨rfl, rfl⟩
    · exact ih (i+1) eng

/-- Frame property: the commit loop starting at `i` with `fuel` steps
does not touch cells or flags outside `[i, i + fuel)`. -/
theorem commitFrom_frame (acc : List TriState) :
    ∀ fuel i eng j, (j < i ∨ i + fuel ≤ j) →
      (commitFrom acc fuel i eng).1.m_vecCells.getD j ts_dontknow =
        eng.m_vecCells.getD j ts_dontknow ∧
      (commitFrom acc fuel i eng).1.m_vecChanged.getD j false =
        eng.m_vecChanged.getD j false := by
  intro fuel
  induction fuel with
  | zero => intro i eng j _; exact ⟨rfl, rfl⟩
  | succ fuel ih =>
    intro i eng j hj
    have hij : i ≠ j := by omega
    have hj' : j < i + 1 ∨ i + 1 + fuel ≤ j := by omega
    unfold commitFrom
    split
    · rcases hA : Assign (eng.m_vecCells.getD i ts_dontknow) (acc.getD i ts_dontknow) with e | p
      · simp [hA]
      · obtain ⟨v, ch⟩ := p
        simp only [hA]
        obtain ⟨h1, h2⟩ := ih (i+1) (writeCell eng i v ch) j hj'
        rw [h1, h2, writeCell_cells_getD_ne _ _ _ _ _ hij,
          writeCell_changed_getD_ne _ _ _ _ _ hij]
        exact ⟨rfl, rfl⟩
    · exact ih (i+1) eng j hj'

/-- Case analysis of a successful `Assign`: the committed value is the
new value, the previous cell was `ts_dontknow` or already equal, and the
change flag is set exactly when the cell was `ts_dontknow` and differs. -/
theorem Assign_ok (cell newVal v : TriState) (ch : Bool)
    (h : Assign cell newVal = Except.ok (v, ch)) :
    v = newVal ∧ (cell = ts_dontknow ∨ cell = newVal) ∧
      (ch = true ↔ (cell = ts_dontknow ∧ cell ≠ newVal)) := by
  cases cell <;> cases newVal <;> cases v <;> cases ch <;>
    first
      | (exact absurd h (by decide))
      | simp_all [Assign]

/-- `Assign` fails exactly when the cell holds the other concrete value. -/
theorem Assign_error (cell newVal : TriState) (e : Unit)
    (h : Assign cell newVal = Except.error e) :
    cell ≠ ts_dontknow ∧ cell ≠ newVal := by
  cases cell <;> cases newVal <;>
    first
      | (exact absurd h (by decide))
      | simp_all [Assign]

/-- Committing a value a cell already holds is a no-change success. -/
theorem Assign_self (v : TriState) : Assign v v = Except.ok (v, false) := by
  cases v <;> rfl

/-- A conflicting commit always fails. -/
theorem Assign_conflict (cell newVal : TriState) (h1 : cell ≠ ts_dontknow)
    (h2 : cell ≠ newVal) : Assign cell newVal = Except.error () := by
  cases cell <;> cases newVal <;> simp_all [Assign]

theorem writeCell_selfChanged (eng : CInferenceEngine) (i : Nat) (v : TriState) (ch : Bool) :
    (writeCell eng i v ch).m_bSelfChanged = (ch || eng.m_bSelfChanged) := by
  cases ch <;> rfl

theorem writeCell_cells_getD_self (eng : CInferenceEngine) (i : Nat) (v : TriState)
    (h : i < eng.m_vecCells.length) :
    (writeCell eng i v true).m_vecCells.getD i ts_dontknow = v := by
  unfold writeCell
  simp only [if_pos rfl]
  exact getD_set_self _ _ _ _ h

/-- One-step unfolding of the commit loop. -/
theorem commitFrom_succ (acc : List TriState) (fuel i : Nat) (eng : CInferenceEngine) :
    commitFrom acc (fuel+1) i eng =
      (if acc.getD i ts_dontknow ≠ ts_dontknow then
        match Assign (eng.m_vecCells.getD i ts_dontknow) (acc.getD i ts_dontknow) with
        | Except.error _ => (eng, -1)
        | Except.ok (v, ch) => commitFrom acc fuel (i+1) (writeCell eng i v ch)
      else commitFrom acc fuel (i+1) eng) := rfl

theorem commitFrom_succ_dk (acc : List TriState) (fuel i : Nat) (eng : CInferenceEngine)
    (h : acc.getD i ts_dontknow = ts_dontknow) :
    commitFrom acc (fuel+1) i eng = commitFrom acc fuel (i+1) eng := by
  rw [commitFrom_succ, if_neg (not_not_intro h)]

theorem commitFrom_succ_err (acc : List TriState) (fuel i : Nat) (eng : CInferenceEngine)
    (e : Unit) (hacc : acc.getD i ts_dontknow ≠ ts_dontknow)
    (h : Assign (eng.m_vecCells.getD i ts_dontknow) (acc.getD i ts_dontknow) =
      Except.error e) :
    commitFrom acc (fuel+1) i eng = (eng, -1) := by
  rw [commitFrom_succ, if_pos hacc, h]

theorem commitFrom_succ_ok (acc : List TriState) (fuel i : Nat) (eng : CInferenceEngine)
    (v : TriState) (ch : Bool) (hacc : acc.getD i ts_dontknow ≠ ts_dontknow)
    (h : Assign (eng.m_vecCells.getD i ts_dontknow) (acc.getD i ts_dontknow) =
      Except.ok (v, ch)) :
    commitFrom acc (fuel+1) i eng = commitFrom acc fuel (i+1) (writeCell eng i v ch) := by
  rw [commitFrom_succ, if_pos hacc, h]

/-- Monotone refinement at the commit-loop level: a cell that changes
was `ts_dontknow` before, and its new value is the accumulator's
(necessarily concrete) value. -/
theorem commitFrom_monotone (acc : List TriState) :
    ∀ fuel i eng j,
      (commitFrom acc fuel i eng).1.m_vecCells.getD j ts_dontknow ≠
        eng.m_vecCells.getD j ts_dontknow →
      eng.m_vecCells.getD j ts_dontknow = ts_dontknow ∧
      (commitFrom acc fuel i eng).1.m_vecCells.getD j ts_dontknow =
        acc.getD j ts_dontknow ∧
      acc.getD j ts_dontknow ≠ ts_dontknow := by
  intro fuel
  induction fuel with
  | zero => intro i eng j h; exact absurd rfl h
  | succ fuel ih =>
    intro i eng j h
    by_cases hacc : acc.getD i ts_dontknow = ts_dontknow
    · rw [commitFrom_succ_dk acc fuel i eng hacc] at h ⊢
      exact ih (i+1) eng j h
    · rcases hA : Assign (eng.m_vecCells.getD i ts_dontknow) (acc.getD i ts_dontknow)
        with e | ⟨v, ch⟩
      · rw [commitFrom_succ_err acc fuel i eng e hacc hA] at h
        exact absurd rfl h
      · rw [commitFrom_succ_ok acc fuel i eng v ch hacc hA] at h ⊢
        obtain ⟨hv, hcell, hch⟩ := Assign_ok _ _ _ _ hA
        by_cases hij : i = j
        · subst hij
          have hfr := (commitFrom_frame acc fuel (i+1) (writeCell eng i v ch) i
            (Or.inl (Nat.lt_succ_self i))).1
          cases ch with
          | false =>
            have hee : writeCell eng i v false = eng := rfl
            rw [hee] at hfr
            rw [hee, hfr] at h
            exact absurd rfl h
          | true =>
            obtain ⟨hdk, -⟩ := hch.mp rfl
            by_cases hlen : i < eng.m_vecCells.length
            · have hwv : (writeCell eng i v true).m_vecCells.getD i ts_dontknow = v :=
                writeCell_cells_getD_self eng i v hlen
              rw [hfr, hwv, hv]
              exact ⟨hdk, rfl, hacc⟩
            · have hset : eng.m_vecCells.set i v = eng.m_vecCells :=
                List.set_eq_of_length_le (Nat.le_of_not_lt hlen)
              have hwv : (writeCell eng i v true).m_vecCells.getD i ts_dontknow =
                  eng.m_vecCells.getD i ts_dontknow := by
                simp [writeCell, hset]
              rw [hfr, hwv] at h
              exact absurd rfl h
        · have hw : (writeCell eng i v ch).m_vecCells.getD j ts_dontknow =
              eng.m_vecCells.getD j ts_dontknow :=
            writeCell_cells_getD_ne _ _ _ _ _ hij
          rw [← hw] at h
          obtain ⟨h1, h2, h3⟩ := ih (i+1) (writeCell eng i v ch) j h
          rw [hw] at h1
          exact ⟨h1, h2, h3⟩

/-- On success, every in-range cell ends up at the accumulator's value
when that value is concrete, and is untouched otherwise. -/
theorem commitFrom_ok_cells (acc : List TriState) :
    ∀ fuel i eng, (commitFrom acc fuel i eng).2 = 0 →
      ∀ j, i ≤ j → j < i + fuel → j < eng.m_vecCells.length →
      (commitFrom acc fuel i eng).1.m_vecCells.getD j ts_dontknow =
        (if acc.getD j ts_dontknow = ts_dontknow then eng.m_vecCells.getD j ts_dontknow
         else acc.getD j ts_dontknow) := by
  intro fuel
  induction fuel with
  | zero => intro i eng _ j h1 h2 _; omega
  | succ fuel ih =>
    intro i eng hok j h1 h2 hlen
    by_cases hacc : acc.getD i ts_dontknow = ts_dontknow
    · rw [commitFrom_succ_dk acc fuel i eng hacc] at hok ⊢
      by_cases hij : i = j
      · subst hij
        rw [if_pos hacc]
        exact (commitFrom_frame acc fuel (i+1) eng i (Or.inl (Nat.lt_succ_self i))).1
      · exact ih (i+1) eng hok j (by omega) (by omega) hlen
    · rcases hA : Assign (eng.m_vecCells.getD i ts_dontknow) (acc.getD i ts_dontknow)
        with e | ⟨v, ch⟩
      · rw [commitFrom_succ_err acc fuel i eng e hacc hA] at hok
        simp at hok
      · rw [commitFrom_succ_ok acc fuel i eng v ch hacc hA] at hok ⊢
        obtain ⟨hv, hcell, hch⟩ := Assign_ok _ _ _ _ hA
        by_cases hij : i = j
        · subst hij
          rw [if_neg hacc]
          have hfr := (commitFrom_frame acc fuel (i+1) (writeCell eng i v ch) i
            (Or.inl (Nat.lt_succ_self i))).1
          rw [hfr]
          cases ch with
          | false =>
            have hee : writeCell eng i v false = eng := rfl
            rw [hee]
            rcases hcell with hc | hc
            · have hne : eng.m_vecCells.getD i ts_dontknow ≠ acc.getD i ts_dontknow := by
                rw [hc]; exact fun hh => hacc hh.symm
              exact absurd (hch.mpr ⟨hc, hne⟩) Bool.false_ne_true
            · exact hc
          | true => rw [writeCell_cells_getD_self eng i v hlen, hv]
        · have hwl : (writeCell eng i v ch).m_vecCells.length = eng.m_vecCells.length :=
            writeCell_cells_length eng i v ch
          have := ih (i+1) (writeCell eng i v ch) hok j (by omega) (by omega)
            (by rw [hwl]; exact hlen)
          rwa [writeCell_cells_getD_ne _ _ _ _ _ hij] at this

/-- If some in-range index asks a concrete cell to take a different
concrete value, the commit loop reports the contradiction status. -/
theorem commitFrom_conflict (acc : List TriState) :
    ∀ fuel i eng j, i ≤ j → j < i + fuel →
      acc.getD j ts_dontknow ≠ ts_dontknow →
      eng.m_vecCells.getD j ts_dontknow ≠ ts_dontknow →
      eng.m_vecCells.getD j ts_dontknow ≠ acc.getD j ts_dontknow →
      (commitFrom acc fuel i eng).2 = -1 := by
  intro fuel
  induction fuel with
  | zero => intro i eng j h1 h2 _ _ _; omega
  | succ fuel ih =>
    intro i eng j h1 h2 hadk hedk hne
    by_cases hij : i = j
    · subst hij
      rw [commitFrom_succ_err acc fuel i eng () hadk
        (Assign_conflict _ _ hedk (fun hh => hne hh))]
    · have hij' : i + 1 ≤ j := by omega
      by_cases hacc : acc.getD i ts_dontknow = ts_dontknow
      · rw [commitFrom_succ_dk acc fuel i eng hacc]
        exact ih (i+1) eng j hij' (by omega) hadk hedk hne
      · rcases hA : Assign (eng.m_vecCells.getD i ts_dontknow) (acc.getD i ts_dontknow)
          with e | ⟨v, ch⟩
        · rw [commitFrom_succ_err acc fuel i eng e hacc hA]
        · rw [commitFrom_succ_ok acc fuel i eng v ch hacc hA]
          have hw : (writeCell eng i v ch).m_vecCells.getD j ts_dontknow =
              eng.m_vecCells.getD j ts_dontknow :=
            writeCell_cells_getD_ne _ _ _ _ _ hij
          exact ih (i+1) (writeCell eng i v ch) j hij' (by omega) hadk
            (by rw [hw]; exact hedk) (by rw [hw]; exact hne)

/-- If every concrete accumulator cell in range already matches the
line, the commit loop is a no-op returning success. -/
theorem commitFrom_noop (acc : List TriState) :
    ∀ fuel i eng,
      (∀ j, i ≤ j → j < i + fuel → acc.getD j ts_dontknow ≠ ts_dontknow →
        eng.m_vecCells.getD j ts_dontknow = acc.getD j ts_dontknow) →
      commitFrom acc fuel i eng = (eng, 0) := by
  intro fuel
  induction fuel with
  | zero => intro i eng _; rfl
  | succ fuel ih =>
    intro i eng hsame
    by_cases hacc : acc.getD i ts_dontknow = ts_dontknow
    · rw [commitFrom_succ_dk acc fuel i eng hacc]
      exact ih (i+1) eng (fun j h1 h2 h3 => hsame j (by omega) (by omega) h3)
    · have hcell := hsame i (Nat.le_refl i) (by omega) hacc
      have hA : Assign (eng.m_vecCells.getD i ts_dontknow) (acc.getD i ts_dontknow) =
          Except.ok (eng.m_vecCells.getD i ts_dontknow, false) := by
        rw [hcell]; exact Assign_self _
      rw [commitFrom_succ_ok acc fuel i eng _ false hacc hA]
      have hee : writeCell eng i (eng.m_vecCells.getD i ts_dontknow) false = eng := rfl
      rw [hee]
      exact ih (i+1) eng (fun j h1 h2 h3 => hsame j (by omega) (by omega) h3)

/-- On success no conflicting overwrite was silently performed: for
every in-range index with a concrete accumulator value, the original
cell was `ts_dontknow` or already held that value. -/
theorem commitFrom_ok_no_conflict (acc : List TriState) (fuel i : Nat)
    (eng : CInferenceEngine) (hok : (commitFrom acc fuel i eng).2 = 0) :
    ∀ j, i ≤ j → j < i + fuel → acc.getD j ts_dontknow ≠ ts_dontknow →
      eng.m_vecCells.getD j ts_dontknow = ts_dontknow ∨
      eng.m_vecCells.getD j ts_dontknow = acc.getD j ts_dontknow := by
  intro j h1 h2 hadk
  by_cases hdk : eng.m_vecCells.getD j ts_dontknow = ts_dontknow
  · exact Or.inl hdk
  · by_cases heq : eng.m_vecCells.getD j ts_dontknow = acc.getD j ts_dontknow
    · exact Or.inr heq
    · have := commitFrom_conflict acc fuel i eng j h1 h2 hadk hdk heq
      rw [hok] at this
      exact absurd this (by decide)

/-- Partial-write shape on contradiction: there is a cut index; below it
every in-range cell kept its value or took the accumulator's concrete
value, and from the cut on every cell is exactly as before the call. -/
theorem commitFrom_err_shape (acc : List TriState) :
    ∀ fuel i eng, (commitFrom acc fuel i eng).2 = -1 →
      ∃ cut, i ≤ cut ∧ cut < i + fuel ∧
        (∀ j, i ≤ j → j < cut →
          (commitFrom acc fuel i eng).1.m_vecCells.getD j ts_dontknow =
            eng.m_vecCells.getD j ts_dontknow ∨
          (acc.getD j ts_dontknow ≠ ts_dontknow ∧
            (commitFrom acc fuel i eng).1.m_vecCells.getD j ts_dontknow =
              acc.getD j ts_dontknow)) ∧
        (∀ j, cut ≤ j →
          (commitFrom acc fuel i eng).1.m_vecCells.getD j ts_dontknow =
            eng.m_vecCells.getD j ts_dontknow) ∧
        acc.getD cut ts_dontknow ≠ ts_dontknow ∧
        eng.m_vecCells.getD cut ts_dontknow ≠ ts_dontknow ∧
        eng.m_vecCells.getD cut ts_dontknow ≠ acc.getD cut ts_dontknow := by
  intro fuel
  induction fuel with
  | zero => intro i eng h; simp [commitFrom] at h
  | succ fuel ih =>
    intro i eng herr
    by_cases hacc : acc.getD i ts_dontknow = ts_dontknow
    · rw [commitFrom_succ_dk acc fuel i eng hacc] at herr ⊢
      obtain ⟨cut, hc1, hc2, hbelow, habove, hcut⟩ := ih (i+1) eng herr
      refine ⟨cut, by omega, by omega, ?_, habove, hcut⟩
      intro j hj1 hj2
      by_cases hij : i = j
      · subst hij
        exact Or.inl ((commitFrom_frame acc fuel (i+1) eng i
          (Or.inl (Nat.lt_succ_self i))).1)
      · exact hbelow j (by omega) hj2
    · rcases hA : Assign (eng.m_vecCells.getD i ts_dontknow) (acc.getD i ts_dontknow)
        with e | ⟨v, ch⟩
      · rw [commitFrom_succ_err acc fuel i eng e hacc hA] at herr ⊢
        obtain ⟨he1, he2⟩ := Assign_error _ _ _ hA
        exact ⟨i, Nat.le_refl i, by omega, fun j hj1 hj2 => by omega,
          fun j _ => rfl, hacc, he1, he2⟩
      · rw [commitFrom_succ_ok acc fuel i eng v ch hacc hA] at herr ⊢
        obtain ⟨hv, hcell, hch⟩ := Assign_ok _ _ _ _ hA
        obtain ⟨cut, hc1, hc2, hbelow, habove, hcut1, hcut2, hcut3⟩ :=
          ih (i+1) (writeCell eng i v ch) herr
        have hwne : ∀ j, i ≠ j → (writeCell eng i v ch).m_vecCells.getD j ts_dontknow =
            eng.m_vecCells.getD j ts_dontknow :=
          fun j hj => writeCell_cells_getD_ne _ _ _ _ _ hj
        have hicut : i ≠ cut := by omega
        refine ⟨cut, by omega, by omega, ?_, ?_, hcut1,
          by rw [← hwne cut hicut]; exact hcut2,
          by rw [← hwne cut hicut]; exact hcut3⟩
        · intro j hj1 hj2
          by_cases hij : i = j
          · subst hij
            have hfr := (commitFrom_frame acc fuel (i+1) (writeCell eng i v ch) i
              (Or.inl (Nat.lt_succ_self i))).1
            cases ch with
            | false =>
              have hee : writeCell eng i v false = eng := rfl
              rw [hee] at hfr
              exact Or.inl hfr
            | true =>
              by_cases hlen : i < eng.m_vecCells.length
              · refine Or.inr ⟨hacc, ?_⟩
                rw [hfr, writeCell_cells_getD_self eng i v hlen, hv]
              · have hset : eng.m_vecCells.set i v = eng.m_vecCells :=
                  List.set_eq_of_length_le (Nat.le_of_not_lt hlen)
                refine Or.inl ?_
                rw [hfr]
                simp [writeCell, hset]
          · rcases hbelow j (by omega) hj2 with hl | hr
            · rw [hwne j hij] at hl
              exact Or.inl hl
            · exact Or.inr hr
        · intro j hj
          have := habove j hj
          rw [hwne j (by omega)] at this
          exact this

/-- The aggregate flag after the commit loop: it is true exactly when it
was already true before, or some cell actually changed.  (In particular
it is never cleared: the code has no reset.) -/
theorem commitFrom_selfChanged (acc : List TriState) :
    ∀ fuel i eng, i + fuel ≤ eng.m_vecCells.length →
      ((commitFrom acc fuel i eng).1.m_bSelfChanged = true ↔
        (eng.m_bSelfChanged = true ∨ ∃ j,
          (commitFrom acc fuel i eng).1.m_vecCells.getD j ts_dontknow ≠
            eng.m_vecCells.getD j ts_dontknow)) := by
  intro fuel
  induction fuel with
  | zero => intro i eng _; simp [commitFrom]
  | succ fuel ih =>
    intro i eng hb
    by_cases hacc : acc.getD i ts_dontknow = ts_dontknow
    · rw [commitFrom_succ_dk acc fuel i eng hacc]
      exact ih (i+1) eng (by omega)
    · rcases hA : Assign (eng.m_vecCells.getD i ts_dontknow) (acc.getD i ts_dontknow)
        with e | ⟨v, ch⟩
      · rw [commitFrom_succ_err acc fuel i eng e hacc hA]
        simp
      · rw [commitFrom_succ_ok acc fuel i eng v ch hacc hA]
        obtain ⟨hv, hcell, hch⟩ := Assign_ok _ _ _ _ hA
        have hb' : i + 1 + fuel ≤ (writeCell eng i v ch).m_vecCells.length := by
          rw [writeCell_cells_length]; omega
        have IH := ih (i+1) (writeCell eng i v ch) hb'
        cases ch with
        | false =>
          have hee : writeCell eng i v false = eng := rfl
          rw [hee] at IH ⊢
          exact IH
        | true =>
          obtain ⟨hdk, -⟩ := hch.mp rfl
          have hlen : i < eng.m_vecCells.length := by omega
          have hfr := (commitFrom_frame acc fuel (i+1) (writeCell eng i v true) i
            (Or.inl (Nat.lt_succ_self i))).1
          have hkey : (commitFrom acc fuel (i+1) (writeCell eng i v true)).1.m_vecCells.getD
              i ts_dontknow ≠ eng.m_vecCells.getD i ts_dontknow := by
            rw [hfr, writeCell_cells_getD_self eng i v hlen, hv, hdk]
            exact hacc
          constructor
          · intro _; exact Or.inr ⟨i, hkey⟩
          · intro _
            exact IH.mpr (Or.inl (by rw [writeCell_selfChanged]; rfl))

/-- The per-cell flags after the commit loop: `changed[j]` holds exactly
when it held before or cell `j` actually changed during the call. -/
theorem commitFrom_changed_getD (acc : List TriState) :
    ∀ fuel i eng, i + fuel ≤ eng.m_vecCells.length →
      eng.m_vecChanged.length = eng.m_vecCells.length →
      ∀ j, ((commitFrom acc fuel i eng).1.m_vecChanged.getD j false = true ↔
        (eng.m_vecChanged.getD j false = true ∨
          (commitFrom acc fuel i eng).1.m_vecCells.getD j ts_dontknow ≠
            eng.m_vecCells.getD j ts_dontknow)) := by
  intro fuel
  induction fuel with
  | zero => intro i eng _ _ j; simp [commitFrom]
  | succ fuel ih =>
    intro i eng hb hcl j
    by_cases hacc : acc.getD i ts_dontknow = ts_dontknow
    · rw [commitFrom_succ_dk acc fuel i eng hacc]
      exact ih (i+1) eng (by omega) hcl j
    · rcases hA : Assign (eng.m_vecCells.getD i ts_dontknow) (acc.getD i ts_dontknow)
        with e | ⟨v, ch⟩
      · rw [commitFrom_succ_err acc fuel i eng e hacc hA]
        simp
      · rw [commitFrom_succ_ok acc fuel i eng v ch hacc hA]
        obtain ⟨hv, hcell, hch⟩ := Assign_ok _ _ _ _ hA
        have hb' : i + 1 + fuel ≤ (writeCell eng i v ch).m_vecCells.length := by
          rw [writeCell_cells_length]; omega
        have hcl' : (writeCell eng i v ch).m_vecChanged.length =
            (writeCell eng i v ch).m_vecCells.length := by
          rw [writeCell_cells_length, writeCell_changed_length]; exact hcl
        have IH := ih (i+1) (writeCell eng i v ch) hb' hcl' j
        cases ch with
        | false =>
          have hee : writeCell eng i v false = eng := rfl
          rw [hee] at IH ⊢
          exact IH
        | true =>
          obtain ⟨hdk, -⟩ := hch.mp rfl
          have hlen : i < eng.m_vecCells.length := by omega
          by_cases hij : i = j
          · subst hij
            have hfrc := (commitFrom_frame acc fuel (i+1) (writeCell eng i v true) i
              (Or.inl (Nat.lt_succ_self i)))
            have hkey : (commitFrom acc fuel (i+1) (writeCell eng i v true)).1.m_vecCells.getD
                i ts_dontknow ≠ eng.m_vecCells.getD i ts_dontknow := by
              rw [hfrc.1, writeCell_cells_getD_self eng i v hlen, hv, hdk]
              exact hacc
            have hset : (writeCell eng i v true).m_vecChanged.getD i false = true := by
              have : i < eng.m_vecChanged.length := by omega
              unfold writeCell
              simp only [if_pos rfl]
              exact getD_set_self _ _ _ _ this
            constructor
            · intro _; exact Or.inr hkey
            · intro _
              rw [hfrc.2, hset]
          · have hwch : (writeCell eng i v true).m_vecChanged.getD j false =
                eng.m_vecChanged.getD j false :=
              writeCell_changed_getD_ne _ _ _ _ _ hij
            have hwce : (writeCell eng i v true).m_vecCells.getD j ts_dontknow =
                eng.m_vecCells.getD j ts_dontknow :=
              writeCell_cells_getD_ne _ _ _ _ _ hij
            rw [hwch, hwce] at IH
            exact IH

/-! ## Claims about the commit phase: C2, C7, C10 -/

/-- A one-cell engine whose cell gets forced: used as a witness input. -/
def engUnit : CInferenceEngine := ⟨[1], [ts_dontknow], [false], false⟩

/-- An engine whose flags are already set although `Infer` writes
nothing: empty constraint over a single already-`Empty` cell. -/
def engC7 : CInferenceEngine := ⟨[], [ts_false], [true], true⟩

/-- An engine on which `Infer` hits a contradiction: empty constraint
over a single `Filled` cell. -/
def engConflict : CInferenceEngine := ⟨[], [ts_true], [false], false⟩

/-- C2: monotonic refinement.  (1) Any cell `Infer` changes was
`ts_dontknow` before the call and is concrete afterwards — never
`Filled` to `Empty` nor `Empty` to `Filled`.  (2) Whenever the final
accumulator asks a concrete cell to take the other concrete value, the
call returns the contradiction status instead of performing the write.
(3) A concrete cell is never modified at all. -/
theorem c2_monotonic_refinement (eng : CInferenceEngine) :
    (∀ j, (Infer eng).1.m_vecCells.getD j ts_dontknow ≠
        eng.m_vecCells.getD j ts_dontknow →
      eng.m_vecCells.getD j ts_dontknow = ts_dontknow ∧
      (Infer eng).1.m_vecCells.getD j ts_dontknow ≠ ts_dontknow) ∧
    (∀ j, (inferEnum eng).1.getD j ts_dontknow ≠ ts_dontknow →
      eng.m_vecCells.getD j ts_dontknow ≠ ts_dontknow →
      eng.m_vecCells.getD j ts_dontknow ≠ (inferEnum eng).1.getD j ts_dontknow →
      (Infer eng).2 = -1) ∧
    (∀ j, eng.m_vecCells.getD j ts_dontknow ≠ ts_dontknow →
      (Infer eng).1.m_vecCells.getD j ts_dontknow =
        eng.m_vecCells.getD j ts_dontknow) := by
  refine ⟨?_, ?_, ?_⟩
  · intro j hchange
    unfold Infer at hchange ⊢
    obtain ⟨h1, h2, h3⟩ := commitFrom_monotone (inferEnum eng).1
      eng.m_vecCells.length 0 eng j hchange
    exact ⟨h1, by rw [h2]; exact h3⟩
  · intro j hadk hedk hne
    have hjlen : j < eng.m_vecCells.length := by
      by_contra hge
      exact hedk (getD_eq_default _ _ _ (Nat.le_of_not_lt hge))
    exact commitFrom_conflict (inferEnum eng).1 eng.m_vecCells.length 0 eng j
      (Nat.zero_le j) (by omega) hadk hedk hne
  · intro j hconc
    by_contra hne
    exact hconc (commitFrom_monotone (inferEnum eng).1
      eng.m_vecCells.length 0 eng j hne).1

/-- C2 witness: on the one-cell engine with constraint `[1]` the cell
changes from `ts_dontknow` to a concrete value, and on `engConflict`
(empty constraint, one `Filled` cell) the conflicting commit yields the
contradiction status `-1`. -/
theorem c2_monotonic_refinement_witness :
    (engUnit.m_vecCells.getD 0 ts_dontknow = ts_dontknow ∧
      (Infer engUnit).1.m_vecCells.getD 0 ts_dontknow ≠ ts_dontknow) ∧
    (Infer engConflict).2 = -1 :=
  ⟨(c2_monotonic_refinement engUnit).1 0 (by decide),
   (c2_monotonic_refinement engConflict).2.1 0 (by decide) (by decide) (by decide)⟩

/-- C7 counterexample: the flags are not reset at the start of `Infer`.
On `engC7` (empty constraint, one already-`Empty` cell, flags pre-set)
the call writes no cell, yet after the call `changed[0]` and the
aggregate flag are still `true` — the claim would require them to be
`false` since no cell was written during the call. -/
theorem c7_flags_not_reset :
    (Infer engC7).1.m_vecCells = engC7.m_vecCells ∧
    (Infer engC7).1.m_vecChanged.getD 0 false = true ∧
    (Infer engC7).1.m_bSelfChanged = true := by decide

/-- C7 amended: the flags are never reset; instead, after the call,
`changed[j]` holds exactly when it held before the call or cell `j` was
written during the call, and likewise for the aggregate flag. -/
theorem c7_amended_flags_accumulate (eng : CInferenceEngine)
    (hch : eng.m_vecChanged.length = eng.m_vecCells.length) :
    ((Infer eng).1.m_bSelfChanged = true ↔
      (eng.m_bSelfChanged = true ∨ ∃ j,
        (Infer eng).1.m_vecCells.getD j ts_dontknow ≠
          eng.m_vecCells.getD j ts_dontknow)) ∧
    (∀ j, (Infer eng).1.m_vecChanged.getD j false = true ↔
      (eng.m_vecChanged.getD j false = true ∨
        (Infer eng).1.m_vecCells.getD j ts_dontknow ≠
          eng.m_vecCells.getD j ts_dontknow)) := by
  constructor
  · exact commitFrom_selfChanged (inferEnum eng).1 eng.m_vecCells.length 0 eng
      (by omega)
  · exact commitFrom_changed_getD (inferEnum eng).1 eng.m_vecCells.length 0 eng
      (by omega) hch

/-- C7 amended witness: instantiating at `engC7`, whose flags were set
before the call: they stay set although nothing was written. -/
theorem c7_amended_flags_accumulate_witness :
    ((Infer engC7).1.m_bSelfChanged = true ↔
      (engC7.m_bSelfChanged = true ∨ ∃ j,
        (Infer engC7).1.m_vecCells.getD j ts_dontknow ≠
          engC7.m_vecCells.getD j ts_dontknow)) ∧
    (∀ j, (Infer engC7).1.m_vecChanged.getD j false = true ↔
      (engC7.m_vecChanged.getD j false = true ∨
        (Infer engC7).1.m_vecCells.getD j ts_dontknow ≠
          engC7.m_vecCells.getD j ts_dontknow)) :=
  c7_amended_flags_accumulate engC7 (by decide)

/-- C10: partial-write shape on contradiction.  When `Infer` returns
`-1` there is a cut index: below it every cell kept its pre-call value
or took the accumulator's concrete value, from the cut on every cell is
exactly as before the call, and at the cut the accumulator's concrete
value conflicts with the cell's pre-call concrete value. -/
theorem c10_partial_write_shape (eng : CInferenceEngine)
    (herr : (Infer eng).2 = -1) :
    ∃ cut, cut < eng.m_vecCells.length ∧
      (∀ j, j < cut →
        (Infer eng).1.m_vecCells.getD j ts_dontknow =
          eng.m_vecCells.getD j ts_dontknow ∨
        ((inferEnum eng).1.getD j ts_dontknow ≠ ts_dontknow ∧
          (Infer eng).1.m_vecCells.getD j ts_dontknow =
            (inferEnum eng).1.getD j ts_dontknow)) ∧
      (∀ j, cut ≤ j →
        (Infer eng).1.m_vecCells.getD j ts_dontknow =
          eng.m_vecCells.getD j ts_dontknow) ∧
      (inferEnum eng).1.getD cut ts_dontknow ≠ ts_dontknow ∧
      eng.m_vecCells.getD cut ts_dontknow ≠ ts_dontknow ∧
      eng.m_vecCells.getD cut ts_dontknow ≠ (inferEnum eng).1.getD cut ts_dontknow := by
  obtain ⟨cut, hc1, hc2, hbelow, habove, hcut⟩ :=
    commitFrom_err_shape (inferEnum eng).1 eng.m_vecCells.length 0 eng herr
  exact ⟨cut, by omega, fun j hj => hbelow j (Nat.zero_le j) hj, habove, hcut⟩

/-- C10 witness: on `engConflict` the call returns `-1` and the
partial-write shape holds. -/
theorem c10_partial_write_shape_witness :
    (Infer engConflict).2 = -1 ∧
    ∃ cut, cut < engConflict.m_vecCells.length ∧
      (∀ j, j < cut →
        (Infer engConflict).1.m_vecCells.getD j ts_dontknow =
          engConflict.m_vecCells.getD j ts_dontknow ∨
        ((inferEnum engConflict).1.getD j ts_dontknow ≠ ts_dontknow ∧
          (Infer engConflict).1.m_vecCells.getD j ts_dontknow =
            (inferEnum engConflict).1.getD j ts_dontknow)) ∧
      (∀ j, cut ≤ j →
        (Infer engConflict).1.m_vecCells.getD j ts_dontknow =
          engConflict.m_vecCells.getD j ts_dontknow) ∧
      (inferEnum engConflict).1.getD cut ts_dontknow ≠ ts_dontknow ∧
      engConflict.m_vecCells.getD cut ts_dontknow ≠ ts_dontknow ∧
      engConflict.m_vecCells.getD cut ts_dontknow ≠
        (inferEnum engConflict).1.getD cut ts_dontknow :=
  ⟨by decide, c10_partial_write_shape engConflict (by decide)⟩

/-! ## The enumeration as a fold over the placement list -/

/-- The minimum legal start of block `b` (the C++ `start`). -/
def startOf (eng : CInferenceEngine) (pos : List Nat) (b : Nat) : Nat :=
  if b = 0 then 0 else pos.getD (b-1) 0 + eng.m_vecConst.getD (b-1) 0 + 1

/-- The end of the previous block (the C++ `prevSpaceStart`). -/
def prevEndOf (eng : CInferenceEngine) (pos : List Nat) (b : Nat) : Nat :=
  if b = 0 then 0 else pos.getD (b-1) 0 + eng.m_vecConst.getD (b-1) 0

theorem Enumerate_base (eng : CInferenceEngine) (fuel b : Nat) (pos : List Nat)
    (accumulator : List TriState) (bFirst : Bool) (hb : b = eng.m_vecConst.length) :
    Enumerate eng fuel b pos accumulator bFirst = Accumulate eng pos accumulator bFirst := by
  unfold Enumerate
  rw [if_pos hb]

theorem Enumerate_stuck (eng : CInferenceEngine) (b : Nat) (pos : List Nat)
    (accumulator : List TriState) (bFirst : Bool) (hb : b ≠ eng.m_vecConst.length) :
    Enumerate eng 0 b pos accumulator bFirst = (accumulator, bFirst) := by
  unfold Enumerate
  rw [if_neg hb]

theorem Enumerate_succ (eng : CInferenceEngine) (fuel b : Nat) (pos : List Nat)
    (accumulator : List TriState) (bFirst : Bool) (hb : b ≠ eng.m_vecConst.length) :
    Enumerate eng (fuel+1) b pos accumulator bFirst =
      (List.range' (startOf eng pos b)
          (eng.m_vecCells.length - startOf eng pos b)).foldl
        (fun st i =>
          if bViolatesSolidAt eng (prevEndOf eng pos b) i then st
          else if bViolatesSpaceAt eng b i then st
          else if (b == eng.m_vecConst.length - 1) && bViolatesTailAt eng b i then st
          else Enumerate eng fuel (b+1) (pos.set b i) st.1 st.2)
        (accumulator, bFirst) := by
  conv_lhs => unfold Enumerate
  rw [if_neg hb]
  rfl

theorem enumPs_base (eng : CInferenceEngine) (fuel b : Nat) (pos : List Nat)
    (hb : b = eng.m_vecConst.length) :
    enumPs eng fuel b pos = [pos] := by
  unfold enumPs
  rw [if_pos hb]

theorem enumPs_stuck (eng : CInferenceEngine) (b : Nat) (pos : List Nat)
    (hb : b ≠ eng.m_vecConst.length) :
    enumPs eng 0 b pos = [] := by
  unfold enumPs
  rw [if_neg hb]

theorem enumPs_succ (eng : CInferenceEngine) (fuel b : Nat) (pos : List Nat)
    (hb : b ≠ eng.m_vecConst.length) :
    enumPs eng (fuel+1) b pos =
      (List.range' (startOf eng pos b)
          (eng.m_vecCells.length - startOf eng pos b)).foldl
        (fun acc i =>
          if bViolatesSolidAt eng (prevEndOf eng pos b) i then acc
          else if bViolatesSpaceAt eng b i then acc
          else if (b == eng.m_vecConst.length - 1) && bViolatesTailAt eng b i then acc
          else acc ++ enumPs eng fuel (b+1) (pos.set b i))
        [] := by
  conv_lhs => unfold enumPs
  rw [if_neg hb]
  rfl

/-- One fold step of `Accumulate`, applied to the running pair. -/
def accumStep (eng : CInferenceEngine) (st : List TriState × Bool) (p : List Nat) :
    List TriState × Bool :=
  Accumulate eng p st.1 st.2

/-- Pulling the initial accumulated list out of a collecting fold. -/
theorem foldl_collect_append {α β : Type} (q1 q2 q3 : β → Bool) (h : β → List α) :
    ∀ (l : List β) (a0 : List α),
      l.foldl (fun acc i => if q1 i then acc else if q2 i then acc else if q3 i then acc
        else acc ++ h i) a0 =
      a0 ++ l.foldl (fun acc i => if q1 i then acc else if q2 i then acc else if q3 i then acc
        else acc ++ h i) [] := by
  intro l
  induction l with
  | nil => intro a0; simp
  | cons x xs ih =>
    intro a0
    simp only [List.foldl_cons]
    by_cases h1 : q1 x
    · rw [if_pos h1, if_pos h1]
      exact ih a0
    · rw [if_neg h1, if_neg h1]
      by_cases h2 : q2 x
      · rw [if_pos h2, if_pos h2]
        exact ih a0
      · rw [if_neg h2, if_neg h2]
        by_cases h3 : q3 x
        · rw [if_pos h3, if_pos h3]
          exact ih a0
        · rw [if_neg h3, if_neg h3]
          rw [ih (a0 ++ h x), ih ([] ++ h x)]
          simp [List.append_assoc]

/-- A state-threading fold whose step either skips or folds a computed
list equals folding the concatenation of all computed lists. -/
theorem foldl_state_vs_list {α β σ : Type} (q1 q2 q3 : β → Bool) (h : β → List α)
    (F : σ → α → σ) (G : σ → β → σ)
    (hG : ∀ st i, G st i = if q1 i then st else if q2 i then st else if q3 i then st
      else (h i).foldl F st) :
    ∀ (l : List β) (st : σ),
      l.foldl G st =
        (l.foldl (fun acc i => if q1 i then acc else if q2 i then acc else if q3 i then acc
          else acc ++ h i) []).foldl F st := by
  intro l
  induction l with
  | nil => intro st; rfl
  | cons x xs ih =>
    intro st
    simp only [List.foldl_cons]
    rw [hG st x]
    by_cases h1 : q1 x
    · rw [if_pos h1, if_pos h1]
      exact ih st
    · rw [if_neg h1, if_neg h1]
      by_cases h2 : q2 x
      · rw [if_pos h2, if_pos h2]
        exact ih st
      · rw [if_neg h2, if_neg h2]
        by_cases h3 : q3 x
        · rw [if_pos h3, if_pos h3]
          exact ih st
        · rw [if_neg h3, if_neg h3]
          rw [ih ((h x).foldl F st), foldl_collect_append q1 q2 q3 h xs ([] ++ h x),
            List.nil_append, List.foldl_append]

/-- `Enumerate` equals folding `Accumulate` over the placement list
`enumPs`, in order. -/
theorem Enumerate_eq_foldl (eng : CInferenceEngine) :
    ∀ fuel b pos accumulator bFirst,
      Enumerate eng fuel b pos accumulator bFirst =
        (enumPs eng fuel b pos).foldl (accumStep eng) (accumulator, bFirst) := by
  intro fuel
  induction fuel with
  | zero =>
    intro b pos accumulator bFirst
    by_cases hb : b = eng.m_vecConst.length
    · rw [Enumerate_base eng 0 b pos accumulator bFirst hb, enumPs_base eng 0 b pos hb]
      rfl
    · rw [Enumerate_stuck eng b pos accumulator bFirst hb, enumPs_stuck eng b pos hb]
      rfl
  | succ fuel ih =>
    intro b pos accumulator bFirst
    by_cases hb : b = eng.m_vecConst.length
    · rw [Enumerate_base eng (fuel+1) b pos accumulator bFirst hb,
        enumPs_base eng (fuel+1) b pos hb]
      rfl
    · rw [Enumerate_succ eng fuel b pos accumulator bFirst hb,
        enumPs_succ eng fuel b pos hb]
      refine foldl_state_vs_list _ _ _
        (fun i => enumPs eng fuel (b+1) (pos.set b i)) (accumStep eng) _ ?_
        (List.range' (startOf eng pos b) (eng.m_vecCells.length - startOf eng pos b))
        (accumulator, bFirst)
      intro st i
      by_cases h1 : bViolatesSolidAt eng (prevEndOf eng pos b) i
      · rw [if_pos h1, if_pos h1]
      · rw [if_neg h1, if_neg h1]
        by_cases h2 : bViolatesSpaceAt eng b i
        · rw [if_pos h2, if_pos h2]
        · rw [if_neg h2, if_neg h2]
          by_cases h3 : (b == eng.m_vecConst.length - 1) && bViolatesTailAt eng b i
          · rw [if_pos h3, if_pos h3]
          · rw [if_neg h3, if_neg h3]
            exact ih (b+1) (pos.set b i) st.1 st.2

/-! ## Characterizing the materialized line -/

theorem getD_replicate_self {α : Type} (n j : Nat) (d : α) :
    (List.replicate n d).getD j d = d := by
  rcases Nat.lt_or_ge j n with h | h
  · simp [List.getD_eq_getElem?_getD, List.getElem?_replicate, h]
  · exact getD_eq_default _ _ _ (by simpa using h)

theorem getD_replicate_lt {α : Type} (n j : Nat) (c d : α) (h : j < n) :
    (List.replicate n c).getD j d = c := by
  simp [List.getD_eq_getElem?_getD, List.getElem?_replicate, h]

theorem getD_map_range {α : Type} (n i : Nat) (g : Nat → α) (d : α) (h : i < n) :
    ((List.range n).map g).getD i d = g i := by
  simp [List.getD_eq_getElem?_getD, List.getElem?_range, h]

/-- The write positions of `materializeTmp`: for each block, the cells
it covers, in order. -/
def writesOf (eng : CInferenceEngine) (pos : List Nat) : List Nat :=
  ((List.range eng.m_vecConst.length).map
    (fun i => (List.range (eng.m_vecConst.getD i 0)).map
      (fun j => pos.getD i 0 + j))).flatten

theorem materializeTmp_eq_writes (eng : CInferenceEngine) (pos : List Nat) :
    materializeTmp eng pos =
      (writesOf eng pos).foldl (fun tmp q => tmp.set q ts_true)
        (List.replicate eng.m_vecCells.length ts_false) := by
  unfold materializeTmp writesOf
  rw [List.foldl_flatten, List.foldl_map]
  simp only [List.foldl_map]

theorem foldl_set_length : ∀ (L : List Nat) (t : List TriState),
    (L.foldl (fun t q => t.set q ts_true) t).length = t.length := by
  intro L
  induction L with
  | nil => intro t; rfl
  | cons q L ih =>
    intro t
    simp only [List.foldl_cons]
    rw [ih (t.set q ts_true), List.length_set]

theorem foldl_set_getD : ∀ (L : List Nat) (t : List TriState) (i : Nat), i < t.length →
    (L.foldl (fun t q => t.set q ts_true) t).getD i ts_dontknow =
      (if i ∈ L then ts_true else t.getD i ts_dontknow) := by
  intro L
  induction L with
  | nil => intro t i _; simp
  | cons q L ih =>
    intro t i hi
    simp only [List.foldl_cons]
    rw [ih (t.set q ts_true) i (by rw [List.length_set]; exact hi)]
    by_cases hm : i ∈ L
    · rw [if_pos hm, if_pos (List.mem_cons_of_mem q hm)]
    · rw [if_neg hm]
      by_cases hq : q = i
      · subst hq
        rw [getD_set_self _ _ _ _ hi, if_pos (List.mem_cons_self q L)]
      · rw [getD_set_ne _ _ _ _ _ hq,
          if_neg (by simp [List.mem_cons, hm]; exact fun hh => hq hh.symm)]

theorem mem_writesOf (eng : CInferenceEngine) (pos : List Nat) (i : Nat) :
    i ∈ writesOf eng pos ↔ coversP eng.m_vecConst pos i := by
  unfold writesOf coversP
  rw [List.mem_flatten]
  constructor
  · rintro ⟨l, hl, hil⟩
    obtain ⟨m, hm, rfl⟩ := List.mem_map.mp hl
    obtain ⟨j, hj, rfl⟩ := List.mem_map.mp hil
    exact ⟨m, List.mem_range.mp hm, Nat.le_add_right _ _,
      Nat.add_lt_add_left (List.mem_range.mp hj) _⟩
  · rintro ⟨m, hm, h1, h2⟩
    refine ⟨(List.range (eng.m_vecConst.getD m 0)).map (fun j => pos.getD m 0 + j),
      List.mem_map.mpr ⟨m, List.mem_range.mpr hm, rfl⟩,
      List.mem_map.mpr ⟨i - pos.getD m 0, List.mem_range.mpr (by omega), by omega⟩⟩

/-- The materialized line agrees with the spec-level `lineCell`. -/
theorem materializeTmp_getD (eng : CInferenceEngine) (pos : List Nat) (i : Nat)
    (hi : i < eng.m_vecCells.length) :
    (materializeTmp eng pos).getD i ts_dontknow = lineCell eng.m_vecConst pos i := by
  rw [materializeTmp_eq_writes,
    foldl_set_getD _ _ i (by rw [List.length_replicate]; exact hi)]
  unfold lineCell
  by_cases hc : coversP eng.m_vecConst pos i
  · rw [if_pos ((mem_writesOf eng pos i).mpr hc), if_pos hc]
  · rw [if_neg (fun hm => hc ((mem_writesOf eng pos i).mp hm)), if_neg hc]
    exact getD_replicate_lt _ _ _ _ hi

theorem materializeTmp_length (eng : CInferenceEngine) (pos : List Nat) :
    (materializeTmp eng pos).length = eng.m_vecCells.length := by
  rw [materializeTmp_eq_writes, foldl_set_length, List.length_replicate]

/-! ## The accumulator as an intersection over the placement list -/

theorem Accumulate_snd (eng : CInferenceEngine) (pos : List Nat)
    (accumulator : List TriState) (bFirst : Bool) :
    (Accumulate eng pos accumulator bFirst).2 = false := rfl

theorem Accumulate_length (eng : CInferenceEngine) (pos : List Nat)
    (accumulator : List TriState) (bFirst : Bool) :
    (Accumulate eng pos accumulator bFirst).1.length = eng.m_vecCells.length := by
  unfold Accumulate
  simp

theorem Accumulate_getD (eng : CInferenceEngine) (pos : List Nat)
    (accumulator : List TriState) (bFirst : Bool) (i : Nat)
    (hi : i < eng.m_vecCells.length) :
    (Accumulate eng pos accumulator bFirst).1.getD i ts_dontknow =
      (if bFirst then (materializeTmp eng pos).getD i ts_dontknow
       else if accumulator.getD i ts_dontknow ≠ (materializeTmp eng pos).getD i ts_dontknow
         then ts_dontknow
       else accumulator.getD i ts_dontknow) := by
  unfold Accumulate
  exact getD_map_range _ _ _ _ hi

/-- Folding placements with `bFirst = false`: a concrete value survives
exactly when the accumulator already held it and every materialized
placement agrees. -/
theorem foldl_accumStep_false (eng : CInferenceEngine) :
    ∀ (L : List (List Nat)) (accumulator : List TriState),
      accumulator.length = eng.m_vecCells.length →
      ((L.foldl (accumStep eng) (accumulator, false)).2 = false ∧
       (L.foldl (accumStep eng) (accumulator, false)).1.length = eng.m_vecCells.length ∧
       ∀ i, i < eng.m_vecCells.length → ∀ v, v ≠ ts_dontknow →
         ((L.foldl (accumStep eng) (accumulator, false)).1.getD i ts_dontknow = v ↔
           (accumulator.getD i ts_dontknow = v ∧
            ∀ p ∈ L, (materializeTmp eng p).getD i ts_dontknow = v))) := by
  intro L
  induction L with
  | nil =>
    intro accumulator hlen
    refine ⟨rfl, hlen, ?_⟩
    intro i hi v hv
    simp
  | cons p L ih =>
    intro accumulator hlen
    simp only [List.foldl_cons]
    have hstep : accumStep eng (accumulator, false) p =
        ((Accumulate eng p accumulator false).1, false) := by
      unfold accumStep
      exact Prod.ext rfl (Accumulate_snd eng p accumulator false)
    rw [hstep]
    obtain ⟨h1, h2, h3⟩ := ih (Accumulate eng p accumulator false).1
      (Accumulate_length eng p accumulator false)
    refine ⟨h1, h2, ?_⟩
    intro i hi v hv
    rw [h3 i hi v hv]
    rw [Accumulate_getD eng p accumulator false i hi]
    constructor
    · rintro ⟨hacc, hall⟩
      by_cases hne : accumulator.getD i ts_dontknow ≠
          (materializeTmp eng p).getD i ts_dontknow
      · rw [if_neg Bool.false_ne_true, if_pos hne] at hacc
        · exact absurd hacc.symm hv
      · rw [if_neg Bool.false_ne_true, if_neg hne] at hacc
        push_neg at hne
        refine ⟨hacc, ?_⟩
        intro q hq
        rcases List.mem_cons.mp hq with rfl | hq'
        · rw [← hne]; exact hacc
        · exact hall q hq'
    · rintro ⟨hacc, hall⟩
      have hp : (materializeTmp eng p).getD i ts_dontknow = v :=
        hall p (List.mem_cons_self p L)
      have heq : accumulator.getD i ts_dontknow =
          (materializeTmp eng p).getD i ts_dontknow := by rw [hacc, hp]
      rw [if_neg Bool.false_ne_true, if_neg (not_not_intro heq)]
      exact ⟨hacc, fun q hq => hall q (List.mem_cons_of_mem p hq)⟩

/-- The placement list explored by `Infer`'s enumeration. -/
def inferPs (eng : CInferenceEngine) : List (List Nat) :=
  enumPs eng eng.m_vecConst.length 0 (List.replicate eng.m_vecConst.length 0)

theorem inferEnum_eq_foldl (eng : CInferenceEngine) :
    inferEnum eng = (inferPs eng).foldl (accumStep eng)
      (List.replicate eng.m_vecCells.length ts_dontknow, true) :=
  Enumerate_eq_foldl eng eng.m_vecConst.length 0
    (List.replicate eng.m_vecConst.length 0)
    (List.replicate eng.m_vecCells.length ts_dontknow) true

theorem inferEnum_empty (eng : CInferenceEngine) (h : inferPs eng = []) :
    inferEnum eng = (List.replicate eng.m_vecCells.length ts_dontknow, true) := by
  rw [inferEnum_eq_foldl, h]
  rfl

/-- When at least one placement is folded, the final accumulator holds a
concrete value at a cell exactly when every folded placement materializes
that value there. -/
theorem inferEnum_char (eng : CInferenceEngine) (hne : inferPs eng ≠ []) :
    (inferEnum eng).2 = false ∧
    (inferEnum eng).1.length = eng.m_vecCells.length ∧
    ∀ i, i < eng.m_vecCells.length → ∀ v, v ≠ ts_dontknow →
      ((inferEnum eng).1.getD i ts_dontknow = v ↔
        ∀ p ∈ inferPs eng, (materializeTmp eng p).getD i ts_dontknow = v) := by
  rcases hL : inferPs eng with - | ⟨p, L⟩
  · exact absurd hL hne
  · rw [inferEnum_eq_foldl, hL]
    simp only [List.foldl_cons]
    have hstep : accumStep eng (List.replicate eng.m_vecCells.length ts_dontknow, true) p =
        ((Accumulate eng p (List.replicate eng.m_vecCells.length ts_dontknow) true).1,
          false) := by
      unfold accumStep
      exact Prod.ext rfl (Accumulate_snd eng p _ true)
    rw [hstep]
    obtain ⟨h1, h2, h3⟩ := foldl_accumStep_false eng L
      (Accumulate eng p (List.replicate eng.m_vecCells.length ts_dontknow) true).1
      (Accumulate_length eng p _ true)
    refine ⟨h1, h2, ?_⟩
    intro i hi v hv
    rw [h3 i hi v hv, Accumulate_getD eng p _ true i hi, if_pos rfl]
    constructor
    · rintro ⟨hp, hall⟩
      intro q hq
      rcases List.mem_cons.mp hq with rfl | hq'
      · exact hp
      · exact hall q hq'
    · intro hall
      exact ⟨hall p (List.mem_cons_self p L),
        fun q hq => hall q (List.mem_cons_of_mem p hq)⟩

/-- C5: when enumeration finds zero valid placements, `isFirstSeen`
stays true, the accumulator is never folded, no cell is modified, the
flags are untouched, and `Infer` returns the success status `0`,
distinct from the contradiction status `-1`. -/
theorem c5_unsat_silent_success (eng : CInferenceEngine)
    (h : inferPs eng = []) :
    (inferEnum eng).2 = true ∧ Infer eng = (eng, 0) ∧ (Infer eng).2 ≠ -1 := by
  have hacc : inferEnum eng = (List.replicate eng.m_vecCells.length ts_dontknow, true) :=
    inferEnum_empty eng h
  have hnoop : Infer eng = (eng, 0) := by
    unfold Infer
    rw [hacc]
    exact commitFrom_noop _ _ 0 eng
      (fun j _ _ hj => absurd (getD_replicate_self _ _ _) hj)
  refine ⟨by rw [hacc], hnoop, by rw [hnoop]; simp⟩

/-- Scenario 4 of the spec: `[2]` with cell 0 `Filled` and cell 1
`Empty` in a 5-cell line admits no valid placement. -/
def engC5 : CInferenceEngine :=
  ⟨[2], [ts_true, ts_false, ts_dontknow, ts_dontknow, ts_dontknow],
    List.replicate 5 false, false⟩

/-- C5 witness: scenario 4's line has zero valid placements, and
`Infer` is a silent success on it. -/
theorem c5_unsat_silent_success_witness :
    inferPs engC5 = [] ∧
    ((inferEnum engC5).2 = true ∧ Infer engC5 = (engC5, 0) ∧ (Infer engC5).2 ≠ -1) :=
  ⟨by decide, c5_unsat_silent_success engC5 (by decide)⟩

/-! ## Characterizing the enumerated placements -/

theorem ext_of_getD (l1 l2 : List Nat) (h : l1.length = l2.length)
    (hg : ∀ j, j < l1.length → l1.getD j 0 = l2.getD j 0) : l1 = l2 := by
  apply List.ext_getElem h
  intro i h1 h2
  have := hg i h1
  rwa [List.getD_eq_getElem?_getD, List.getD_eq_getElem?_getD,
    List.getElem?_eq_getElem h1, List.getElem?_eq_getElem h2] at this

theorem bViolatesSolidAt_false (eng : CInferenceEngine) (ps i : Nat) :
    bViolatesSolidAt eng ps i = false ↔
      ∀ j, ps ≤ j → j < i → eng.m_vecCells.getD j ts_dontknow ≠ ts_true := by
  unfold bViolatesSolidAt
  rw [List.any_eq_false]
  constructor
  · intro h j h1 h2
    have hj : j ∈ List.range' ps (i - ps) := List.mem_range'_1.mpr ⟨h1, by omega⟩
    simpa using h j hj
  · intro h j hj
    obtain ⟨h1, h2⟩ := List.mem_range'_1.mp hj
    simpa using h j h1 (by omega)

theorem bViolatesSpaceAt_false (eng : CInferenceEngine) (b i : Nat) :
    bViolatesSpaceAt eng b i = false ↔
      ∀ j, i ≤ j → j < i + eng.m_vecConst.getD b 0 →
        j < eng.m_vecCells.length ∧
        eng.m_vecCells.getD j ts_dontknow ≠ ts_false := by
  unfold bViolatesSpaceAt
  rw [List.any_eq_false]
  constructor
  · intro h j h1 h2
    have hj : j ∈ List.range' i (eng.m_vecConst.getD b 0) :=
      List.mem_range'_1.mpr ⟨h1, by omega⟩
    have := h j hj
    simp only [Bool.or_eq_true, decide_eq_true_eq, beq_iff_eq, not_or] at this
    exact ⟨by omega, this.2⟩
  · intro h j hj
    obtain ⟨h1, h2⟩ := List.mem_range'_1.mp hj
    have := h j h1 (by omega)
    simp only [Bool.or_eq_true, decide_eq_true_eq, beq_iff_eq, not_or]
    exact ⟨by omega, this.2⟩

theorem bViolatesTailAt_false (eng : CInferenceEngine) (b i : Nat) :
    bViolatesTailAt eng b i = false ↔
      ∀ j, i + eng.m_vecConst.getD b 0 ≤ j → j < eng.m_vecCells.length →
        eng.m_vecCells.getD j ts_dontknow ≠ ts_true := by
  unfold bViolatesTailAt
  rw [List.any_eq_false]
  constructor
  · intro h j h1 h2
    have hj : j ∈ List.range' (i + eng.m_vecConst.getD b 0)
        (eng.m_vecCells.length - (i + eng.m_vecConst.getD b 0)) :=
      List.mem_range'_1.mpr ⟨h1, by omega⟩
    simpa using h j hj
  · intro h j hj
    obtain ⟨h1, h2⟩ := List.mem_range'_1.mp hj
    simpa using h j h1 (by omega)

/-- The conditions block `i` of placement `p` must satisfy for the
enumeration to keep `p`: the block starts at or after the minimum legal
start, fits in the line with no known-`Empty` cell in its body, has no
known-`Filled` cell in the gap before it, and (for the last block) no
known-`Filled` cell after it. -/
def OkBlockAt (eng : CInferenceEngine) (p : List Nat) (i : Nat) : Prop :=
  startOf eng p i ≤ p.getD i 0 ∧
  p.getD i 0 < eng.m_vecCells.length ∧
  (∀ j, prevEndOf eng p i ≤ j → j < p.getD i 0 →
    eng.m_vecCells.getD j ts_dontknow ≠ ts_true) ∧
  (∀ j, p.getD i 0 ≤ j → j < p.getD i 0 + eng.m_vecConst.getD i 0 →
    j < eng.m_vecCells.length ∧ eng.m_vecCells.getD j ts_dontknow ≠ ts_false) ∧
  (i = eng.m_vecConst.length - 1 →
    ∀ j, p.getD i 0 + eng.m_vecConst.getD i 0 ≤ j → j < eng.m_vecCells.length →
      eng.m_vecCells.getD j ts_dontknow ≠ ts_true)

/-- All blocks from `b` on satisfy their enumeration conditions. -/
def ExtFrom (eng : CInferenceEngine) (b : Nat) (p : List Nat) : Prop :=
  ∀ i, b ≤ i → i < eng.m_vecConst.length → OkBlockAt eng p i

/-- Membership in a three-condition collecting fold. -/
theorem mem_foldl_collect {α β : Type} (q1 q2 q3 : β → Bool) (h : β → List α) :
    ∀ (l : List β) (x : α),
      (x ∈ l.foldl (fun acc i => if q1 i then acc else if q2 i then acc
          else if q3 i then acc else acc ++ h i) [] ↔
       ∃ i ∈ l, q1 i = false ∧ q2 i = false ∧ q3 i = false ∧ x ∈ h i) := by
  intro l
  induction l with
  | nil => intro x; simp
  | cons y l ih =>
    intro x
    simp only [List.foldl_cons]
    rw [foldl_collect_append q1 q2 q3 h l]
    simp only [List.mem_append, ih x]
    by_cases h1 : q1 y
    · rw [if_pos h1]
      simp only [List.not_mem_nil, false_or, List.mem_cons]
      constructor
      · rintro ⟨i, hi, hq⟩; exact ⟨i, Or.inr hi, hq⟩
      · rintro ⟨i, hi | hi, hq⟩
        · subst hi; rw [h1] at hq; exact absurd hq.1 (by simp)
        · exact ⟨i, hi, hq⟩
    · rw [if_neg h1]
      by_cases h2 : q2 y
      · rw [if_pos h2]
        simp only [List.not_mem_nil, false_or, List.mem_cons]
        constructor
        · rintro ⟨i, hi, hq⟩; exact ⟨i, Or.inr hi, hq⟩
        · rintro ⟨i, hi | hi, hq⟩
          · subst hi; rw [h2] at hq; exact absurd hq.2.1 (by simp)
          · exact ⟨i, hi, hq⟩
      · rw [if_neg h2]
        by_cases h3 : q3 y
        · rw [if_pos h3]
          simp only [List.not_mem_nil, false_or, List.mem_cons]
          constructor
          · rintro ⟨i, hi, hq⟩; exact ⟨i, Or.inr hi, hq⟩
          · rintro ⟨i, hi | hi, hq⟩
            · subst hi; rw [h3] at hq; exact absurd hq.2.2.1 (by simp)
            · exact ⟨i, hi, hq⟩
        · rw [if_neg h3]
          simp only [List.nil_append, List.mem_cons]
          constructor
          · rintro (hx | ⟨i, hi, hq⟩)
            · exact ⟨y, Or.inl rfl, Bool.eq_false_iff.mpr h1,
                Bool.eq_false_iff.mpr h2, Bool.eq_false_iff.mpr h3, hx⟩
            · exact ⟨i, Or.inr hi, hq⟩
          · rintro ⟨i, hi | hi, hq⟩
            · subst hi; exact Or.inl hq.2.2.2
            · exact Or.inr ⟨i, hi, hq⟩

/-- The placements emitted by the enumeration from level `b` (with
enough fuel) are exactly those that agree with `pos` below `b` and
satisfy every block's enumeration conditions from `b` on. -/
theorem mem_enumPs (eng : CInferenceEngine) :
    ∀ fuel b pos, pos.length = eng.m_vecConst.length →
      eng.m_vecConst.length ≤ b + fuel → b ≤ eng.m_vecConst.length →
      ∀ p, (p ∈ enumPs eng fuel b pos ↔
        (p.length = eng.m_vecConst.length ∧
         (∀ j, j < b → p.getD j 0 = pos.getD j 0) ∧
         ExtFrom eng b p)) := by
  intro fuel
  induction fuel with
  | zero =>
    intro b pos hlen hfb hbk p
    have hb : b = eng.m_vecConst.length := by omega
    rw [enumPs_base eng 0 b pos hb]
    simp only [List.mem_singleton]
    constructor
    · rintro rfl
      exact ⟨hlen, fun j _ => rfl, fun i h1 h2 => absurd h2 (by omega)⟩
    · rintro ⟨hl, hagree, -⟩
      exact ext_of_getD p pos (by rw [hl, hlen]) (fun j hj => hagree j (by omega))
  | succ fuel ih =>
    intro b pos hlen hfb hbk p
    by_cases hb : b = eng.m_vecConst.length
    · rw [enumPs_base eng (fuel+1) b pos hb]
      simp only [List.mem_singleton]
      constructor
      · rintro rfl
        exact ⟨hlen, fun j _ => rfl, fun i h1 h2 => absurd h2 (by omega)⟩
      · rintro ⟨hl, hagree, -⟩
        exact ext_of_getD p pos (by rw [hl, hlen]) (fun j hj => hagree j (by omega))
    · have hblt : b < eng.m_vecConst.length := by omega
      rw [enumPs_succ eng fuel b pos hb, mem_foldl_collect]
      constructor
      · rintro ⟨i, hi, hq1, hq2, hq3, hrec⟩
        obtain ⟨hs1, hs2⟩ := List.mem_range'_1.mp hi
        have hilen : i < eng.m_vecCells.length := by omega
        rw [ih (b+1) (pos.set b i) (by rw [List.length_set]; exact hlen)
          (by omega) (by omega) p] at hrec
        obtain ⟨hl, hagree', hExt'⟩ := hrec
        have hpb : p.getD b 0 = i := by
          rw [hagree' b (Nat.lt_succ_self b)]
          exact getD_set_self _ _ _ _ (by rw [hlen]; exact hblt)
        have hagree : ∀ j, j < b → p.getD j 0 = pos.getD j 0 := by
          intro j hj
          rw [hagree' j (by omega), getD_set_ne _ _ _ _ _ (by omega)]
        have hstarteq : startOf eng p b = startOf eng pos b := by
          unfold startOf
          by_cases hb0 : b = 0
          · rw [if_pos hb0, if_pos hb0]
          · rw [if_neg hb0, if_neg hb0, hagree (b-1) (by omega)]
        have hpreveq : prevEndOf eng p b = prevEndOf eng pos b := by
          unfold prevEndOf
          by_cases hb0 : b = 0
          · rw [if_pos hb0, if_pos hb0]
          · rw [if_neg hb0, if_neg hb0, hagree (b-1) (by omega)]
        refine ⟨hl, hagree, ?_⟩
        intro i' h1 h2
        rcases Nat.eq_or_lt_of_le h1 with heq | hlt
        · subst heq
          refine ⟨by rw [hstarteq, hpb]; exact hs1, by rw [hpb]; exact hilen,
            ?_, ?_, ?_⟩
          · intro j hj1 hj2
            rw [hpreveq] at hj1
            rw [hpb] at hj2
            exact (bViolatesSolidAt_false eng (prevEndOf eng pos b) i).mp hq1 j hj1 hj2
          · intro j hj1 hj2
            rw [hpb] at hj1 hj2
            exact (bViolatesSpaceAt_false eng b i).mp hq2 j hj1 hj2
          · intro hlast j hj1 hj2
            rw [hpb] at hj1
            rw [show ((b == eng.m_vecConst.length - 1) = true) from beq_iff_eq.mpr hlast,
              Bool.true_and] at hq3
            exact (bViolatesTailAt_false eng b i).mp hq3 j hj1 hj2
        · exact hExt' i' hlt h2
      · rintro ⟨hl, hagree, hExt⟩
        obtain ⟨ho1, ho2, ho3, ho4, ho5⟩ := hExt b (Nat.le_refl b) hblt
        have hstarteq : startOf eng p b = startOf eng pos b := by
          unfold startOf
          by_cases hb0 : b = 0
          · rw [if_pos hb0, if_pos hb0]
          · rw [if_neg hb0, if_neg hb0, hagree (b-1) (by omega)]
        have hpreveq : prevEndOf eng p b = prevEndOf eng pos b := by
          unfold prevEndOf
          by_cases hb0 : b = 0
          · rw [if_pos hb0, if_pos hb0]
          · rw [if_neg hb0, if_neg hb0, hagree (b-1) (by omega)]
        have hs1 : startOf eng pos b ≤ p.getD b 0 := by rw [← hstarteq]; exact ho1
        refine ⟨p.getD b 0, List.mem_range'_1.mpr ⟨hs1, by omega⟩, ?_, ?_, ?_, ?_⟩
        · rw [bViolatesSolidAt_false]
          intro j hj1 hj2
          rw [← hpreveq] at hj1
          exact ho3 j hj1 hj2
        · rw [bViolatesSpaceAt_false]
          intro j hj1 hj2
          exact ho4 j hj1 hj2
        · by_cases hlast : b = eng.m_vecConst.length - 1
          · have htail : bViolatesTailAt eng b (p.getD b 0) = false := by
              rw [bViolatesTailAt_false]
              intro j hj1 hj2
              exact ho5 hlast j hj1 hj2
            rw [htail, Bool.and_false]
          · rw [show ((b == eng.m_vecConst.length - 1) = false) from
              beq_eq_false_iff_ne.mpr hlast, Bool.false_and]
        · rw [ih (b+1) (pos.set b (p.getD b 0))
            (by rw [List.length_set]; exact hlen) (by omega) (by omega) p]
          refine ⟨hl, ?_, fun i' h1 h2 => hExt i' (by omega) h2⟩
          intro j hj
          rcases Nat.lt_or_ge j b with hj' | hj'
          · rw [getD_set_ne _ _ _ _ _ (by omega)]
            exact hagree j hj'
          · have hjb : j = b := by omega
            subst hjb
            rw [getD_set_self _ _ _ _ (by rw [hlen]; exact hblt)]

/-! ## Geometry of ordered placements -/

theorem getD_mem_of_lt {α : Type} (l : List α) (n : Nat) (d : α) (h : n < l.length) :
    l.getD n d ∈ l := by
  rw [List.getD_eq_getElem?_getD, List.getElem?_eq_getElem h]
  exact List.getElem_mem h

/-- The ordering condition extracted from the enumeration conditions. -/
theorem ordered_of_ext (eng : CInferenceEngine) (p : List Nat)
    (hExt : ExtFrom eng 0 p) :
    ∀ i, 0 < i → i < eng.m_vecConst.length →
      p.getD (i-1) 0 + eng.m_vecConst.getD (i-1) 0 + 1 ≤ p.getD i 0 := by
  intro i h1 h2
  have := (hExt i (Nat.zero_le i) h2).1
  unfold startOf at this
  rwa [if_neg (by omega)] at this

/-- Blocks of an ordered placement are strictly separated. -/
theorem ordered_le (c p : List Nat)
    (hOrd : ∀ i, 0 < i → i < c.length →
      p.getD (i-1) 0 + c.getD (i-1) 0 + 1 ≤ p.getD i 0) :
    ∀ bb, bb < c.length → ∀ a, a < bb →
      p.getD a 0 + c.getD a 0 + 1 ≤ p.getD bb 0 := by
  intro bb
  induction bb with
  | zero => intro _ a ha; omega
  | succ bb ih =>
    intro hbb a ha
    have hstep := hOrd (bb+1) (Nat.succ_pos bb) hbb
    simp only [Nat.add_sub_cancel] at hstep
    rcases Nat.lt_or_ge a bb with ha' | ha'
    · have := ih (by omega) a ha'
      omega
    · have hab : a = bb := by omega
      subst hab
      omega

/-- No block covers a cell lying in the gap before block `bb`. -/
theorem gap_not_covered (c p : List Nat)
    (hOrd : ∀ i, 0 < i → i < c.length →
      p.getD (i-1) 0 + c.getD (i-1) 0 + 1 ≤ p.getD i 0)
    (bb : Nat) (hbb : bb < c.length) (j : Nat)
    (h1 : (if bb = 0 then 0 else p.getD (bb-1) 0 + c.getD (bb-1) 0) ≤ j)
    (h2 : j < p.getD bb 0) : ¬ coversP c p j := by
  rintro ⟨m, hm, hm1, hm2⟩
  rcases Nat.lt_or_ge m bb with hmb | hmb
  · -- m < bb, so the block ends at or before the gap's start
    have hbb0 : bb ≠ 0 := by omega
    rw [if_neg hbb0] at h1
    rcases Nat.lt_or_ge m (bb-1) with hmb' | hmb'
    · have := ordered_le c p hOrd (bb-1) (by omega) m hmb'
      omega
    · have hmeq : m = bb - 1 := by omega
      subst hmeq
      omega
  · -- m ≥ bb, so the block starts after j
    rcases Nat.lt_or_ge bb m with hmb' | hmb'
    · have := ordered_le c p hOrd m hm bb hmb'
      omega
    · have hmeq : m = bb := by omega
      subst hmeq
      omega

/-- No block covers a cell lying after the last block's end. -/
theorem tail_not_covered (c p : List Nat)
    (hOrd : ∀ i, 0 < i → i < c.length →
      p.getD (i-1) 0 + c.getD (i-1) 0 + 1 ≤ p.getD i 0)
    (hk : 0 < c.length) (j : Nat)
    (h1 : p.getD (c.length-1) 0 + c.getD (c.length-1) 0 ≤ j) : ¬ coversP c p j := by
  rintro ⟨m, hm, hm1, hm2⟩
  rcases Nat.lt_or_ge m (c.length-1) with hmb | hmb
  · have := ordered_le c p hOrd (c.length-1) (by omega) m hmb
    omega
  · have hmeq : m = c.length - 1 := by omega
    subst hmeq
    omega

/-- Every uncovered cell lies in some gap or after the last block. -/
theorem uncovered_position (c p : List Nat)
    (hOrd : ∀ i, 0 < i → i < c.length →
      p.getD (i-1) 0 + c.getD (i-1) 0 + 1 ≤ p.getD i 0)
    (hk : 0 < c.length) (j : Nat) (hnc : ¬ coversP c p j) :
    (∃ bb, bb < c.length ∧
      (if bb = 0 then 0 else p.getD (bb-1) 0 + c.getD (bb-1) 0) ≤ j ∧
      j < p.getD bb 0) ∨
    p.getD (c.length-1) 0 + c.getD (c.length-1) 0 ≤ j := by
  by_cases h0 : j < p.getD 0 0
  · exact Or.inl ⟨0, hk, by rw [if_pos rfl]; omega, h0⟩
  · push_neg at h0
    set P : Nat → Prop := fun m => p.getD m 0 ≤ j with hP
    have hP0 : P 0 := h0
    set M := Nat.findGreatest P (c.length - 1) with hM
    have hPM : P M := Nat.findGreatest_spec (Nat.zero_le _) hP0
    have hMle : M ≤ c.length - 1 := Nat.findGreatest_le _
    have hMend : p.getD M 0 + c.getD M 0 ≤ j := by
      by_contra hlt
      exact hnc ⟨M, by omega, hPM, by omega⟩
    rcases Nat.lt_or_ge M (c.length - 1) with hMlt | hMge
    · refine Or.inl ⟨M+1, by omega, ?_, ?_⟩
      · rw [if_neg (Nat.succ_ne_zero M)]
        simpa using hMend
      · have := Nat.findGreatest_is_greatest (P := P)
          (Nat.lt_succ_self M) (by omega)
        simp only [hP, not_le] at this
        exact this
    · have hMeq : M = c.length - 1 := by omega
      rw [← hMeq]
      exact Or.inr hMend

/-- Placements explored by `Infer`: exactly those of the right length
satisfying every block's enumeration conditions. -/
theorem mem_inferPs (eng : CInferenceEngine) (p : List Nat) :
    p ∈ inferPs eng ↔
      (p.length = eng.m_vecConst.length ∧ ExtFrom eng 0 p) := by
  unfold inferPs
  rw [mem_enumPs eng eng.m_vecConst.length 0
    (List.replicate eng.m_vecConst.length 0) (List.length_replicate _ _)
    (by omega) (Nat.zero_le _) p]
  constructor
  · rintro ⟨h1, -, h3⟩; exact ⟨h1, h3⟩
  · rintro ⟨h1, h3⟩; exact ⟨h1, fun j hj => absurd hj (Nat.not_lt_zero j), h3⟩

/-- For a nonempty constraint, the enumeration conditions imply
spec-level consistency. -/
theorem ext_imp_consistent (eng : CInferenceEngine) (p : List Nat)
    (hk : 0 < eng.m_vecConst.length)
    (hlen : p.length = eng.m_vecConst.length) (hExt : ExtFrom eng 0 p) :
    Consistent eng.m_vecConst eng.m_vecCells p := by
  have hOrd := ordered_of_ext eng p hExt
  refine ⟨hlen, hOrd, ?_, ?_, ?_⟩
  · -- each block fits in the line
    intro i hi
    obtain ⟨-, ho2, -, ho4, -⟩ := hExt i (Nat.zero_le i) hi
    rcases Nat.eq_zero_or_pos (eng.m_vecConst.getD i 0) with hc | hc
    · omega
    · have := (ho4 (p.getD i 0 + eng.m_vecConst.getD i 0 - 1) (by omega) (by omega)).1
      omega
  · -- every known Filled cell is covered
    intro j hj htrue
    by_contra hnc
    rcases uncovered_position eng.m_vecConst p hOrd hk j hnc with ⟨bb, hbb, h1, h2⟩ | htail
    · have hgap := (hExt bb (Nat.zero_le bb) hbb).2.2.1 j (by
        unfold prevEndOf
        exact h1) h2
      exact hgap htrue
    · have := (hExt (eng.m_vecConst.length - 1) (Nat.zero_le _) (by omega)).2.2.2.2
        rfl j htail hj
      exact this htrue
  · -- every known Empty cell is uncovered
    intro j hj hfalse
    rintro ⟨m, hm, hm1, hm2⟩
    exact ((hExt m (Nat.zero_le m) hm).2.2.2.1 j hm1 hm2).2 hfalse

/-- For positive block lengths, spec-level consistency implies the
enumeration conditions. -/
theorem consistent_imp_ext (eng : CInferenceEngine) (p : List Nat)
    (hpos : ∀ x ∈ eng.m_vecConst, 0 < x)
    (hcons : Consistent eng.m_vecConst eng.m_vecCells p) : ExtFrom eng 0 p := by
  obtain ⟨hlen, hOrd, hfits, htrue, hfalse⟩ := hcons
  intro i hi0 hi
  have hci : 0 < eng.m_vecConst.getD i 0 :=
    hpos _ (getD_mem_of_lt _ _ _ (by omega))
  have hfit := hfits i hi
  refine ⟨?_, by omega, ?_, ?_, ?_⟩
  · unfold startOf
    by_cases hb0 : i = 0
    · rw [if_pos hb0]; omega
    · rw [if_neg hb0]; exact hOrd i (by omega) hi
  · -- no Filled cell in the gap before block i
    intro j hj1 hj2
    intro hjtrue
    have hjlen : j < eng.m_vecCells.length := by omega
    have hcov := htrue j hjlen hjtrue
    unfold prevEndOf at hj1
    exact gap_not_covered eng.m_vecConst p hOrd i hi j hj1 hj2 hcov
  · -- block body: in bounds, no Empty cell
    intro j hj1 hj2
    refine ⟨by omega, ?_⟩
    intro hjfalse
    exact hfalse j (by omega) hjfalse ⟨i, hi, hj1, hj2⟩
  · -- tail after the last block: no Filled cell
    intro hlast j hj1 hj2
    intro hjtrue
    have hcov := htrue j hj2 hjtrue
    rw [hlast] at hj1
    exact tail_not_covered eng.m_vecConst p hOrd (by omega) j hj1 hcov

theorem inferEnum_length (eng : CInferenceEngine) :
    (inferEnum eng).1.length = eng.m_vecCells.length := by
  by_cases h : inferPs eng = []
  · rw [inferEnum_empty eng h]
    exact List.length_replicate _ _
  · exact (inferEnum_char eng h).2.1

theorem lineCell_eq_true_iff (c p : List Nat) (j : Nat) :
    lineCell c p j = ts_true ↔ coversP c p j := by
  by_cases h : coversP c p j
  · simp [lineCell, h]
  · simp [lineCell, h]

theorem lineCell_eq_false_iff (c p : List Nat) (j : Nat) :
    lineCell c p j = ts_false ↔ ¬ coversP c p j := by
  by_cases h : coversP c p j
  · simp [lineCell, h]
  · simp [lineCell, h]

/-- Every consistent placement is explored by the enumeration
(completeness of the pruned depth-first search). -/
theorem consistent_mem_inferPs (eng : CInferenceEngine)
    (hpos : ∀ x ∈ eng.m_vecConst, 0 < x) (p : List Nat)
    (hc : Consistent eng.m_vecConst eng.m_vecCells p) : p ∈ inferPs eng :=
  (mem_inferPs eng p).mpr ⟨hc.1, consistent_imp_ext eng p hpos hc⟩

/-- C1: soundness of inference.  (1) Every cell `Infer` writes takes a
concrete value that is the cell's materialized value in every placement
consistent with the constraint and the pre-call cells.  (2) When at
least one consistent placement exists, the accumulator equals the
intersection over all consistent placements: a cell covered by every
consistent placement is `ts_true`, a cell covered by none is
`ts_false`, and a cell covered by some but not all is `ts_dontknow`. -/
theorem c1_soundness (eng : CInferenceEngine)
    (hpos : ∀ x ∈ eng.m_vecConst, 0 < x) :
    (∀ i v, v ≠ ts_dontknow →
      (Infer eng).1.m_vecCells.getD i ts_dontknow ≠
        eng.m_vecCells.getD i ts_dontknow →
      (Infer eng).1.m_vecCells.getD i ts_dontknow = v →
      ∀ p, Consistent eng.m_vecConst eng.m_vecCells p →
        lineCell eng.m_vecConst p i = v) ∧
    (∀ p0, Consistent eng.m_vecConst eng.m_vecCells p0 →
      ∀ i, i < eng.m_vecCells.length →
        ((∀ p, Consistent eng.m_vecConst eng.m_vecCells p →
            coversP eng.m_vecConst p i) →
          (inferEnum eng).1.getD i ts_dontknow = ts_true) ∧
        ((∀ p, Consistent eng.m_vecConst eng.m_vecCells p →
            ¬ coversP eng.m_vecConst p i) →
          (inferEnum eng).1.getD i ts_dontknow = ts_false) ∧
        (∀ p q, Consistent eng.m_vecConst eng.m_vecCells p →
          Consistent eng.m_vecConst eng.m_vecCells q →
          coversP eng.m_vecConst p i → ¬ coversP eng.m_vecConst q i →
          (inferEnum eng).1.getD i ts_dontknow = ts_dontknow)) := by
  have hcomp : ∀ p, Consistent eng.m_vecConst eng.m_vecCells p → p ∈ inferPs eng :=
    fun p hc => consistent_mem_inferPs eng hpos p hc
  constructor
  · intro i v hv hchange hval
    obtain ⟨h1, h2, h3⟩ := commitFrom_monotone (inferEnum eng).1
      eng.m_vecCells.length 0 eng i hchange
    have hacc : (inferEnum eng).1.getD i ts_dontknow = v := by
      rw [← h2]; exact hval
    have hne : inferPs eng ≠ [] := by
      intro hemp
      have hdk : (inferEnum eng).1.getD i ts_dontknow = ts_dontknow := by
        rw [inferEnum_empty eng hemp]
        exact getD_replicate_self _ _ _
      exact hv (by rw [← hacc]; exact hdk)
    have hilen : i < eng.m_vecCells.length := by
      by_contra hge
      have hdk : (inferEnum eng).1.getD i ts_dontknow = ts_dontknow :=
        getD_eq_default _ _ _ (by rw [inferEnum_length eng]; omega)
      exact hv (by rw [← hacc]; exact hdk)
    obtain ⟨-, -, hchar⟩ := inferEnum_char eng hne
    have hall := (hchar i hilen v hv).mp hacc
    intro p hc
    rw [← materializeTmp_getD eng p i hilen]
    exact hall p (hcomp p hc)
  · intro p0 hp0 i hi
    have hne : inferPs eng ≠ [] := List.ne_nil_of_mem (hcomp p0 hp0)
    obtain ⟨-, -, hchar⟩ := inferEnum_char eng hne
    refine ⟨?_, ?_, ?_⟩
    · intro hall
      refine (hchar i hi ts_true (by decide)).mpr ?_
      intro p hp
      rw [materializeTmp_getD eng p i hi]
      by_cases hk : 0 < eng.m_vecConst.length
      · obtain ⟨hl, hExt⟩ := (mem_inferPs eng p).mp hp
        exact (lineCell_eq_true_iff _ _ _).mpr
          (hall p (ext_imp_consistent eng p hk hl hExt))
      · obtain ⟨m, hm, -⟩ := hall p0 hp0
        omega
    · intro hnone
      refine (hchar i hi ts_false (by decide)).mpr ?_
      intro p hp
      rw [materializeTmp_getD eng p i hi]
      by_cases hk : 0 < eng.m_vecConst.length
      · obtain ⟨hl, hExt⟩ := (mem_inferPs eng p).mp hp
        exact (lineCell_eq_false_iff _ _ _).mpr
          (hnone p (ext_imp_consistent eng p hk hl hExt))
      · refine (lineCell_eq_false_iff _ _ _).mpr ?_
        rintro ⟨m, hm, -⟩
        omega
    · intro p q hp hq hcov hncov
      rcases hval : (inferEnum eng).1.getD i ts_dontknow with - | - | -
      · rfl
      · have hall := (hchar i hi ts_true (by decide)).mp hval
        have := hall q (hcomp q hq)
        rw [materializeTmp_getD eng q i hi] at this
        exact absurd ((lineCell_eq_true_iff _ _ _).mp this) hncov
      · have hall := (hchar i hi ts_false (by decide)).mp hval
        have := hall p (hcomp p hp)
        rw [materializeTmp_getD eng p i hi] at this
        exact absurd hcov ((lineCell_eq_false_iff _ _ _).mp this)

/-- C1 witness: the soundness statement instantiated at the one-cell
engine with constraint `[1]`, whose positivity hypothesis is discharged
by computation. -/
theorem c1_soundness_witness :
    (∀ x ∈ engUnit.m_vecConst, 0 < x) ∧
    ((∀ i v, v ≠ ts_dontknow →
      (Infer engUnit).1.m_vecCells.getD i ts_dontknow ≠
        engUnit.m_vecCells.getD i ts_dontknow →
      (Infer engUnit).1.m_vecCells.getD i ts_dontknow = v →
      ∀ p, Consistent engUnit.m_vecConst engUnit.m_vecCells p →
        lineCell engUnit.m_vecConst p i = v) ∧
    (∀ p0, Consistent engUnit.m_vecConst engUnit.m_vecCells p0 →
      ∀ i, i < engUnit.m_vecCells.length →
        ((∀ p, Consistent engUnit.m_vecConst engUnit.m_vecCells p →
            coversP engUnit.m_vecConst p i) →
          (inferEnum engUnit).1.getD i ts_dontknow = ts_true) ∧
        ((∀ p, Consistent engUnit.m_vecConst engUnit.m_vecCells p →
            ¬ coversP engUnit.m_vecConst p i) →
          (inferEnum engUnit).1.getD i ts_dontknow = ts_false) ∧
        (∀ p q, Consistent engUnit.m_vecConst engUnit.m_vecCells p →
          Consistent engUnit.m_vecConst engUnit.m_vecCells q →
          coversP engUnit.m_vecConst p i → ¬ coversP engUnit.m_vecConst q i →
          (inferEnum engUnit).1.getD i ts_dontknow = ts_dontknow))) :=
  ⟨by decide, c1_soundness engUnit (by decide)⟩

/-! ## C9: in-bounds accumulation, C8: termination bounds -/

/-- C9: every placement the enumeration hands to `Accumulate` has
ordered, gapped blocks, each block ends within the line, and every
scratch-line write index is strictly below the cell count. -/
theorem c9_in_bounds_accumulation (eng : CInferenceEngine) (p : List Nat)
    (hp : p ∈ inferPs eng) :
    (∀ i, 0 < i → i < eng.m_vecConst.length →
      p.getD (i-1) 0 + eng.m_vecConst.getD (i-1) 0 + 1 ≤ p.getD i 0) ∧
    (∀ i, i < eng.m_vecConst.length →
      p.getD i 0 + eng.m_vecConst.getD i 0 ≤ eng.m_vecCells.length) ∧
    (∀ i j, i < eng.m_vecConst.length → j < eng.m_vecConst.getD i 0 →
      p.getD i 0 + j < eng.m_vecCells.length) ∧
    (∀ q ∈ writesOf eng p, q < eng.m_vecCells.length) := by
  obtain ⟨hl, hExt⟩ := (mem_inferPs eng p).mp hp
  have hOrd := ordered_of_ext eng p hExt
  have hfits : ∀ i, i < eng.m_vecConst.length →
      p.getD i 0 + eng.m_vecConst.getD i 0 ≤ eng.m_vecCells.length := by
    intro i hi
    obtain ⟨-, ho2, -, ho4, -⟩ := hExt i (Nat.zero_le i) hi
    rcases Nat.eq_zero_or_pos (eng.m_vecConst.getD i 0) with hc | hc
    · omega
    · have := (ho4 (p.getD i 0 + eng.m_vecConst.getD i 0 - 1) (by omega) (by omega)).1
      omega
  refine ⟨hOrd, hfits, ?_, ?_⟩
  · intro i j hi hj
    have := hfits i hi
    omega
  · intro q hq
    obtain ⟨m, hm, hm1, hm2⟩ := (mem_writesOf eng p q).mp hq
    have := hfits m hm
    omega

/-- C9 witness: the single placement `[0]` explored on the one-cell
engine with constraint `[1]` satisfies all bounds. -/
theorem c9_in_bounds_accumulation_witness :
    [0] ∈ inferPs engUnit ∧
    ((∀ i, 0 < i → i < engUnit.m_vecConst.length →
      List.getD [0] (i-1) 0 + engUnit.m_vecConst.getD (i-1) 0 + 1 ≤ List.getD [0] i 0) ∧
    (∀ i, i < engUnit.m_vecConst.length →
      List.getD [0] i 0 + engUnit.m_vecConst.getD i 0 ≤ engUnit.m_vecCells.length) ∧
    (∀ i j, i < engUnit.m_vecConst.length → j < engUnit.m_vecConst.getD i 0 →
      List.getD [0] i 0 + j < engUnit.m_vecCells.length) ∧
    (∀ q ∈ writesOf engUnit [0], q < engUnit.m_vecCells.length)) :=
  ⟨by decide, c9_in_bounds_accumulation engUnit [0] (by decide)⟩

theorem foldl_collect_length_le {α β : Type} (q1 q2 q3 : β → Bool) (h : β → List α)
    (M : Nat) (hM : ∀ i, (h i).length ≤ M) :
    ∀ l : List β,
      (l.foldl (fun acc i => if q1 i then acc else if q2 i then acc
        else if q3 i then acc else acc ++ h i) []).length ≤ l.length * M := by
  intro l
  induction l with
  | nil => simp
  | cons x xs ih =>
    simp only [List.foldl_cons]
    rw [foldl_collect_append q1 q2 q3 h xs]
    rw [List.length_append, List.length_cons]
    have hx : (if q1 x then ([] : List α) else if q2 x then [] else if q3 x then []
        else [] ++ h x).length ≤ M := by
      split
      · simp
      · split
        · simp
        · split
          · simp
          · simpa using hM x
    have := ih
    calc (if q1 x then ([] : List α) else if q2 x then [] else if q3 x then []
        else [] ++ h x).length +
        (xs.foldl (fun acc i => if q1 i then acc else if q2 i then acc
          else if q3 i then acc else acc ++ h i) []).length
        ≤ M + xs.length * M := Nat.add_le_add hx this
      _ = (xs.length + 1) * M := by ring

/-- The number of placements the enumeration folds is bounded by
`(N+1)^fuel`: each level tries at most `N` candidate starts. -/
theorem enumPs_length_le (eng : CInferenceEngine) :
    ∀ fuel b pos, (enumPs eng fuel b pos).length ≤
      (eng.m_vecCells.length + 1) ^ fuel := by
  intro fuel
  induction fuel with
  | zero =>
    intro b pos
    by_cases hb : b = eng.m_vecConst.length
    · rw [enumPs_base eng 0 b pos hb]
      simp
    · rw [enumPs_stuck eng b pos hb]
      simp
  | succ fuel ih =>
    intro b pos
    by_cases hb : b = eng.m_vecConst.length
    · rw [enumPs_base eng (fuel+1) b pos hb]
      simpa using Nat.one_le_pow _ _ (by omega)
    · rw [enumPs_succ eng fuel b pos hb]
      have hbound := foldl_collect_length_le
        (fun i => bViolatesSolidAt eng (prevEndOf eng pos b) i)
        (fun i => bViolatesSpaceAt eng b i)
        (fun i => (b == eng.m_vecConst.length - 1) && bViolatesTailAt eng b i)
        (fun i => enumPs eng fuel (b+1) (pos.set b i))
        ((eng.m_vecCells.length + 1) ^ fuel)
        (fun i => ih (b+1) (pos.set b i))
        (List.range' (startOf eng pos b)
          (eng.m_vecCells.length - startOf eng pos b))
      refine le_trans hbound ?_
      rw [List.length_range']
      calc (eng.m_vecCells.length - startOf eng pos b) *
            (eng.m_vecCells.length + 1) ^ fuel
          ≤ (eng.m_vecCells.length + 1) * (eng.m_vecCells.length + 1) ^ fuel :=
            Nat.mul_le_mul_right _ (by omega)
        _ = (eng.m_vecCells.length + 1) ^ (fuel + 1) := by ring

/-- C8: one `Infer` call terminates with status success (`0`) or
contradiction (`-1`); recursion depth `k` (the fuel `Infer` passes)
suffices — more fuel explores exactly the same placements; each level
iterates over at most `N` candidate starts; and at most `(N+1)^k`
placements are folded. -/
theorem c8_termination_bounds (eng : CInferenceEngine) :
    ((Infer eng).2 = 0 ∨ (Infer eng).2 = -1) ∧
    (∀ fuel p, eng.m_vecConst.length ≤ fuel →
      (p ∈ enumPs eng fuel 0 (List.replicate eng.m_vecConst.length 0) ↔
        p ∈ inferPs eng)) ∧
    (∀ pos b, (List.range' (startOf eng pos b)
        (eng.m_vecCells.length - startOf eng pos b)).length ≤
      eng.m_vecCells.length) ∧
    (inferPs eng).length ≤
      (eng.m_vecCells.length + 1) ^ eng.m_vecConst.length := by
  refine ⟨commitFrom_status _ _ _ _, ?_, ?_, enumPs_length_le eng _ _ _⟩
  · intro fuel p hfuel
    rw [mem_enumPs eng fuel 0 (List.replicate eng.m_vecConst.length 0)
      (List.length_replicate _ _) (by omega) (Nat.zero_le _) p,
      mem_inferPs eng p]
    constructor
    · rintro ⟨h1, -, h3⟩; exact ⟨h1, h3⟩
    · rintro ⟨h1, h3⟩; exact ⟨h1, fun j hj => absurd hj (Nat.not_lt_zero j), h3⟩
  · intro pos b
    rw [List.length_range']
    omega

/-- C8 witness: instantiated on the one-cell engine, with the
fuel-sufficiency part applied at fuel `2 ≥ 1`. -/
theorem c8_termination_bounds_witness :
    ((Infer engUnit).2 = 0 ∨ (Infer engUnit).2 = -1) ∧
    ([0] ∈ enumPs engUnit 2 0 (List.replicate engUnit.m_vecConst.length 0) ↔
      [0] ∈ inferPs engUnit) :=
  ⟨(c8_termination_bounds engUnit).1,
   (c8_termination_bounds engUnit).2.1 2 [0] (by decide)⟩

/-! ## C6: idempotence -/

theorem Infer_const (eng : CInferenceEngine) :
    (Infer eng).1.m_vecConst = eng.m_vecConst :=
  commitFrom_const (inferEnum eng).1 eng.m_vecCells.length 0 eng

theorem Infer_cells_length (eng : CInferenceEngine) :
    (Infer eng).1.m_vecCells.length = eng.m_vecCells.length :=
  (commitFrom_lengths (inferEnum eng).1 eng.m_vecCells.length 0 eng).1

theorem Infer_cells_getD (eng : CInferenceEngine) (hok : (Infer eng).2 = 0)
    (j : Nat) (hj : j < eng.m_vecCells.length) :
    (Infer eng).1.m_vecCells.getD j ts_dontknow =
      (if (inferEnum eng).1.getD j ts_dontknow = ts_dontknow
       then eng.m_vecCells.getD j ts_dontknow
       else (inferEnum eng).1.getD j ts_dontknow) :=
  commitFrom_ok_cells (inferEnum eng).1 eng.m_vecCells.length 0 eng hok j
    (Nat.zero_le j) (by omega) hj

/-- Cells already concrete before the call are never modified. -/
theorem Infer_extends (eng : CInferenceEngine) (j : Nat)
    (hconc : eng.m_vecCells.getD j ts_dontknow ≠ ts_dontknow) :
    (Infer eng).1.m_vecCells.getD j ts_dontknow =
      eng.m_vecCells.getD j ts_dontknow := by
  by_contra hne
  exact hconc (commitFrom_monotone (inferEnum eng).1
    eng.m_vecCells.length 0 eng j hne).1

/-- If enumeration finds no placement, `Infer` is the identity with
success status. -/
theorem Infer_of_empty (eng : CInferenceEngine) (h : inferPs eng = []) :
    Infer eng = (eng, 0) := by
  unfold Infer
  rw [inferEnum_empty eng h]
  exact commitFrom_noop _ _ 0 eng
    (fun j _ _ hj => absurd (getD_replicate_self _ _ _) hj)

theorem startOf_infer (eng : CInferenceEngine) (p : List Nat) (i : Nat) :
    startOf (Infer eng).1 p i = startOf eng p i := by
  unfold startOf
  rw [Infer_const]

theorem prevEndOf_infer (eng : CInferenceEngine) (p : List Nat) (i : Nat) :
    prevEndOf (Infer eng).1 p i = prevEndOf eng p i := by
  unfold prevEndOf
  rw [Infer_const]

/-- Placements surviving the checks against the refined line also
survive them against the original line: refinement only adds concrete
cells, and the checks only fail on concrete cells. -/
theorem ext_of_ext_infer (eng : CInferenceEngine) (p : List Nat)
    (hExt1 : ExtFrom (Infer eng).1 0 p) : ExtFrom eng 0 p := by
  intro i h0 hi
  have hi1 : i < (Infer eng).1.m_vecConst.length := by rw [Infer_const]; exact hi
  obtain ⟨ho1, ho2, ho3, ho4, ho5⟩ := hExt1 i h0 hi1
  rw [startOf_infer] at ho1
  rw [Infer_cells_length] at ho2
  refine ⟨ho1, ho2, ?_, ?_, ?_⟩
  · intro j hj1 hj2 hjt
    have hjn : j < eng.m_vecCells.length := by omega
    refine ho3 j (by rw [prevEndOf_infer]; exact hj1) hj2 ?_
    rw [Infer_extends eng j (by rw [hjt]; decide), hjt]
  · intro j hj1 hj2
    have hj2' : j < p.getD i 0 + (Infer eng).1.m_vecConst.getD i 0 := by
      rw [Infer_const]; exact hj2
    obtain ⟨hb1, hb2⟩ := ho4 j hj1 hj2'
    refine ⟨by rw [← Infer_cells_length eng]; exact hb1, ?_⟩
    intro hjf
    exact hb2 (by rw [Infer_extends eng j (by rw [hjf]; decide), hjf])
  · intro hlast j hj1 hj2
    have hlast1 : i = (Infer eng).1.m_vecConst.length - 1 := by
      rw [Infer_const]; exact hlast
    have hj1' : p.getD i 0 + (Infer eng).1.m_vecConst.getD i 0 ≤ j := by
      rw [Infer_const]; exact hj1
    intro hjt
    refine ho5 hlast1 j hj1' (by rw [Infer_cells_length]; exact hj2) ?_
    rw [Infer_extends eng j (by rw [hjt]; decide), hjt]

/-- Placements surviving the checks against the original line also
survive them against the refined line: every newly committed cell is an
accumulator value, hence agreed upon by every explored placement. -/
theorem ext_infer_of_ext (eng : CInferenceEngine) (p : List Nat)
    (hne : inferPs eng ≠ []) (hl : p.length = eng.m_vecConst.length)
    (hExt : ExtFrom eng 0 p) : ExtFrom (Infer eng).1 0 p := by
  have hOrd := ordered_of_ext eng p hExt
  have hpmem : p ∈ inferPs eng := (mem_inferPs eng p).mpr ⟨hl, hExt⟩
  obtain ⟨-, -, hchar⟩ := inferEnum_char eng hne
  -- a cell the call changed took the accumulator's value, which every
  -- explored placement (p included) materializes
  have hkey : ∀ j v, j < eng.m_vecCells.length → v ≠ ts_dontknow →
      (Infer eng).1.m_vecCells.getD j ts_dontknow = v →
      eng.m_vecCells.getD j ts_dontknow = v ∨ lineCell eng.m_vecConst p j = v := by
    intro j v hj hv hval
    by_cases heq : (Infer eng).1.m_vecCells.getD j ts_dontknow =
        eng.m_vecCells.getD j ts_dontknow
    · left; rw [← heq]; exact hval
    · right
      obtain ⟨-, h2, h3⟩ := commitFrom_monotone (inferEnum eng).1
        eng.m_vecCells.length 0 eng j heq
      have hacc : (inferEnum eng).1.getD j ts_dontknow = v := by
        rw [← h2]; exact hval
      have := (hchar j hj v hv).mp hacc p hpmem
      rw [materializeTmp_getD eng p j hj] at this
      exact this
  intro i h0 hi1
  have hi : i < eng.m_vecConst.length := by rw [Infer_const] at hi1; exact hi1
  obtain ⟨ho1, ho2, ho3, ho4, ho5⟩ := hExt i h0 hi
  refine ⟨by rw [startOf_infer]; exact ho1,
    by rw [Infer_cells_length]; exact ho2, ?_, ?_, ?_⟩
  · -- gap: no Filled cell strictly before block i
    intro j hj1 hj2 hjt
    rw [prevEndOf_infer] at hj1
    have hjn : j < eng.m_vecCells.length := by omega
    rcases hkey j ts_true hjn (by decide) hjt with hc | hc
    · exact ho3 j hj1 hj2 hc
    · have hcov := (lineCell_eq_true_iff _ _ _).mp hc
      exact gap_not_covered eng.m_vecConst p hOrd i hi j
        (by unfold prevEndOf at hj1; exact hj1) hj2 hcov
  · -- body: in bounds and no Empty cell
    intro j hj1 hj2
    rw [Infer_const] at hj2
    obtain ⟨hb1, hb2⟩ := ho4 j hj1 hj2
    refine ⟨by rw [Infer_cells_length]; exact hb1, ?_⟩
    intro hjf
    rcases hkey j ts_false hb1 (by decide) hjf with hc | hc
    · exact hb2 hc
    · exact (lineCell_eq_false_iff _ _ _).mp hc ⟨i, hi, hj1, hj2⟩
  · -- tail after the last block: no Filled cell
    intro hlast j hj1 hj2
    rw [Infer_const] at hlast hj1
    rw [Infer_cells_length] at hj2
    intro hjt
    rcases hkey j ts_true hj2 (by decide) hjt with hc | hc
    · exact ho5 hlast j hj1 hj2 hc
    · have hcov := (lineCell_eq_true_iff _ _ _).mp hc
      rw [hlast] at hj1
      exact tail_not_covered eng.m_vecConst p hOrd (by omega) j hj1 hcov

/-- After a successful call, the enumeration explores exactly the same
placements on the refined line as on the original line. -/
theorem inferPs_mem_iff (eng : CInferenceEngine) (hne : inferPs eng ≠ [])
    (p : List Nat) :
    (p ∈ inferPs (Infer eng).1 ↔ p ∈ inferPs eng) := by
  rw [mem_inferPs, mem_inferPs, Infer_const]
  constructor
  · rintro ⟨hl, hExt1⟩
    exact ⟨hl, ext_of_ext_infer eng p hExt1⟩
  · rintro ⟨hl, hExt⟩
    exact ⟨hl, ext_infer_of_ext eng p hne hl hExt⟩

theorem materializeTmp_infer (eng : CInferenceEngine) (p : List Nat) :
    materializeTmp (Infer eng).1 p = materializeTmp eng p := by
  unfold materializeTmp
  rw [Infer_const, Infer_cells_length]

/-- C6 counterexample: on the one-cell engine with constraint `[1]` the
first call succeeds and forces the cell, the second call succeeds and
leaves the cells identical, but the aggregate changed flag after the
second call is `true`, not `false`: the flag set by the first call is
never reset. -/
theorem c6_second_call_flag_not_false :
    (Infer engUnit).2 = 0 ∧
    (Infer (Infer engUnit).1).2 = 0 ∧
    (Infer (Infer engUnit).1).1.m_vecCells = (Infer engUnit).1.m_vecCells ∧
    (Infer (Infer engUnit).1).1.m_bSelfChanged = true := by decide

/-- C6 amended: after a successful call, a second call with no external
modification is a complete no-op: it returns success and leaves the
whole engine state — cells and change flags — exactly as the first call
left it (so the aggregate flag keeps the first call's value instead of
being reset to `false`). -/
theorem c6_amended_idempotent (eng : CInferenceEngine)
    (hok : (Infer eng).2 = 0) :
    Infer (Infer eng).1 = ((Infer eng).1, 0) := by
  by_cases hemp : inferPs eng = []
  · have h1 := Infer_of_empty eng hemp
    rw [h1]
    exact Infer_of_empty eng hemp
  · have hne1 : inferPs (Infer eng).1 ≠ [] := by
      obtain ⟨p, hp⟩ := List.exists_mem_of_ne_nil _ hemp
      exact List.ne_nil_of_mem ((inferPs_mem_iff eng hemp p).mpr hp)
    obtain ⟨-, -, hchar⟩ := inferEnum_char eng hemp
    obtain ⟨-, -, hchar1⟩ := inferEnum_char (Infer eng).1 hne1
    have hcl := Infer_cells_length eng
    -- the second enumeration's accumulator equals the first one's
    have haccsame : ∀ j, j < eng.m_vecCells.length →
        (inferEnum (Infer eng).1).1.getD j ts_dontknow =
          (inferEnum eng).1.getD j ts_dontknow := by
      intro j hj
      have hj1 : j < (Infer eng).1.m_vecCells.length := by omega
      have hiff : ∀ v, v ≠ ts_dontknow →
          ((inferEnum (Infer eng).1).1.getD j ts_dontknow = v ↔
            (inferEnum eng).1.getD j ts_dontknow = v) := by
        intro v hv
        rw [hchar1 j hj1 v hv, hchar j hj v hv]
        constructor
        · intro hall p hp
          rw [← materializeTmp_infer eng p]
          exact hall p ((inferPs_mem_iff eng hemp p).mpr hp)
        · intro hall p hp
          rw [materializeTmp_infer eng p]
          exact hall p ((inferPs_mem_iff eng hemp p).mp hp)
      cases e2 : (inferEnum (Infer eng).1).1.getD j ts_dontknow with
      | ts_dontknow =>
        cases e1 : (inferEnum eng).1.getD j ts_dontknow with
        | ts_dontknow => rfl
        | ts_true =>
          have := (hiff ts_true (by decide)).mpr e1
          rw [e2] at this
          exact absurd this (by decide)
        | ts_false =>
          have := (hiff ts_false (by decide)).mpr e1
          rw [e2] at this
          exact absurd this (by decide)
      | ts_true => exact ((hiff ts_true (by decide)).mp e2).symm
      | ts_false => exact ((hiff ts_false (by decide)).mp e2).symm
    -- the second commit is a no-op: every concrete accumulator cell is
    -- already committed
    show commitFrom (inferEnum (Infer eng).1).1
      (Infer eng).1.m_vecCells.length 0 (Infer eng).1 = ((Infer eng).1, 0)
    apply commitFrom_noop
    intro j hj0 hjlt hjadk
    have hjN : j < eng.m_vecCells.length := by omega
    rw [haccsame j hjN] at hjadk ⊢
    rw [Infer_cells_getD eng hok j hjN, if_neg hjadk]

/-- C6 amended witness: on the one-cell engine the first call succeeds
and the second call is a no-op with success status. -/
theorem c6_amended_idempotent_witness :
    (Infer engUnit).2 = 0 ∧
    Infer (Infer engUnit).1 = ((Infer engUnit).1, 0) :=
  ⟨by decide, c6_amended_idempotent engUnit (by decide)⟩
